import Mathlib

/-!
Verification of the core of `Crypto-Trading-Simulator`
(`src/cpp_core/src/engine.cpp`, `src/cpp_core/include/engine.hpp`).

The two components, `SMACalculator` and `OrderBook`, are embedded shallowly:
`double` prices and quantities become exact rationals (`ℚ`), `size_t` counters
become `ℕ`, the `std::map`s keyed by price become price-sorted association
lists, and the wall clock read at order/trade creation becomes an explicit
`now : ℤ` argument.  A C++ `throw std::invalid_argument` is modelled as
`Except.error` carrying the thrown message; every such throw in the source
happens before any mutation, so an error leaves the caller's state untouched.
-/

namespace Trading

/-- State of `SMACalculator`: circular buffer `prices_`, window size,
current size, write cursor `index_`, and the running sum. -/
structure SMACalculator where
  prices : List ℚ
  window_size : ℕ
  current_size : ℕ
  index : ℕ
  running_sum : ℚ
deriving DecidableEq

/-- `SMACalculator::SMACalculator(size_t)`: rejects `window_size == 0`,
otherwise starts with a buffer of `window_size` zeros, size 0, cursor 0,
running sum 0. -/
def SMACalculator.mk? (window_size : ℕ) : Except String SMACalculator :=
  if window_size = 0 then .error "Window size must be greater than 0"
  else .ok ⟨List.replicate window_size 0, window_size, 0, 0, 0⟩

/-- The mutation performed by `SMACalculator::addPrice` after the argument
check has passed: subtract the overwritten slot from the running sum when the
buffer is full, store the new price, add it to the sum, advance the cursor
modulo the window, and bump the size until it saturates. -/
def SMACalculator.addPriceAux (s : SMACalculator) (price : ℚ) : SMACalculator :=
  let rs := if s.current_size = s.window_size
    then s.running_sum - s.prices.getD s.index 0 else s.running_sum
  { prices := s.prices.set s.index price
    window_size := s.window_size
    current_size := if s.current_size < s.window_size
      then s.current_size + 1 else s.current_size
    index := (s.index + 1) % s.window_size
    running_sum := rs + price }

/-- `SMACalculator::addPrice`: throws on a negative price (before any
mutation), otherwise performs the circular-buffer update. -/
def SMACalculator.addPrice (s : SMACalculator) (price : ℚ) : Except String SMACalculator :=
  if price < 0 then .error "Price cannot be negative"
  else .ok (s.addPriceAux price)

/-- `SMACalculator::getSMA`: 0 when no data, otherwise running sum over size. -/
def SMACalculator.getSMA (s : SMACalculator) : ℚ :=
  if s.current_size = 0 then 0 else s.running_sum / s.current_size

/-- `SMACalculator::size`. -/
def SMACalculator.size (s : SMACalculator) : ℕ := s.current_size

/-- `SMACalculator::reset`: zero the buffer, size, cursor and running sum. -/
def SMACalculator.reset (s : SMACalculator) : SMACalculator :=
  ⟨List.replicate s.prices.length 0, s.window_size, 0, 0, 0⟩

/-- Feed a list of prices left to right through `addPrice`. -/
def SMACalculator.feed (s : SMACalculator) (xs : List ℚ) : Except String SMACalculator :=
  xs.foldlM SMACalculator.addPrice s

/-- Construct a calculator with window `w` and feed the whole list `xs`. -/
def runSMA (w : ℕ) (xs : List ℚ) : Except String SMACalculator :=
  SMACalculator.mk? w >>= fun s => s.feed xs

/-- Invariant tying the calculator state to the list of observations fed so
far: the size is `min n w`, the cursor is `n % w`, the running sum is the sum
of the last `min n w` observations, and each of the last `min n w`
observations still sits in its slot of the circular buffer. -/
def SMAInv (w : ℕ) (xs : List ℚ) (s : SMACalculator) : Prop :=
  s.window_size = w ∧ s.prices.length = w ∧
  s.current_size = min xs.length w ∧
  s.index = xs.length % w ∧
  s.running_sum = (xs.drop (xs.length - min xs.length w)).sum ∧
  ∀ k < min xs.length w,
    s.prices.getD ((xs.length - 1 - k) % w) 0 = xs.getD (xs.length - 1 - k) 0
/-- `OrderSide` enum. -/
inductive OrderSide where
  | BUY
  | SELL
deriving DecidableEq

/-- A resting order (engine.hpp `struct Order`); the creation timestamp is
the wall-clock value `now` supplied by the driver at submission. -/
structure Order where
  id : String
  side : OrderSide
  price : ℚ
  quantity : ℚ
  timestamp : ℤ
deriving DecidableEq

/-- An executed trade (engine.hpp `struct Trade`). -/
structure Trade where
  buy_order_id : String
  sell_order_id : String
  price : ℚ
  quantity : ℚ
  timestamp : ℤ
deriving DecidableEq

/-- Price levels of one side: each price paired with the FIFO queue of orders
resting at it. -/
abbrev PriceLevels := List (ℚ × List Order)

/-- The book: `bids_` kept sorted by price descending, `asks_` ascending,
plus the `next_order_id_` counter. -/
structure OrderBook where
  bids : PriceLevels
  asks : PriceLevels
  next_order_id : ℕ
deriving DecidableEq

/-- A default-constructed `OrderBook` (`next_order_id_ = 1`). -/
def OrderBook.init : OrderBook := ⟨[], [], 1⟩

/-- `bids_[price].push_back(order)` on a map keyed descending: walk the levels
from the highest price, append to the level carrying this price, or create the
level at its sorted position. -/
def insertBid (p : ℚ) (o : Order) : PriceLevels → PriceLevels
  | [] => [(p, [o])]
  | (q, os) :: rest =>
    if q < p then (p, [o]) :: (q, os) :: rest
    else if p = q then (q, os ++ [o]) :: rest
    else (q, os) :: insertBid p o rest

/-- `asks_[price].push_back(order)` on a map keyed ascending. -/
def insertAsk (p : ℚ) (o : Order) : PriceLevels → PriceLevels
  | [] => [(p, [o])]
  | (q, os) :: rest =>
    if p < q then (p, [o]) :: (q, os) :: rest
    else if p = q then (q, os ++ [o]) :: rest
    else (q, os) :: insertAsk p o rest

/-- `OrderBook::generateOrderId`: `"ORD" << next_order_id_++`. -/
def OrderBook.generateOrderId (b : OrderBook) : String × OrderBook :=
  ("ORD" ++ Nat.repr b.next_order_id, { b with next_order_id := b.next_order_id + 1 })

/-- `OrderBook::addOrder`: rejects non-positive price or quantity (throwing
before any mutation), otherwise generates the next ID and appends the order to
the FIFO queue at its price level on the proper side. -/
def OrderBook.addOrder (b : OrderBook) (side : OrderSide) (price quantity : ℚ)
    (now : ℤ) : Except String (String × OrderBook) :=
  if price ≤ 0 ∨ quantity ≤ 0 then .error "Price and quantity must be positive"
  else
    let p := b.generateOrderId
    let o : Order := ⟨p.1, side, price, quantity, now⟩
    match side with
    | .BUY => .ok (p.1, { p.2 with bids := insertBid price o p.2.bids })
    | .SELL => .ok (p.1, { p.2 with asks := insertAsk price o p.2.asks })

/-- The book after an `addOrder` call, also when the call was rejected (the
throw happens before any mutation, so the book is unchanged). -/
def OrderBook.addOrderB (b : OrderBook) (side : OrderSide) (price quantity : ℚ)
    (now : ℤ) : OrderBook :=
  match b.addOrder side price quantity now with
  | .ok r => r.2
  | .error _ => b

/-- One iteration of the `while` loop in `OrderBook::matchOrders`.
`none`: the loop stops (one side empty, or best bid < best ask).
`some (b', none)`: the defensive empty-level cleanup branch (`continue`).
`some (b', some t)`: one trade executes at the best ask price, between the
head orders of the two best levels; fully filled orders are removed, and a
level emptied by the removal is erased. -/
def matchStep (b : OrderBook) (now : ℤ) : Option (OrderBook × Option Trade) :=
  match b.bids, b.asks with
  | [], _ => none
  | _ :: _, [] => none
  | (bp, bos) :: brest, (ap, aos) :: arest =>
    if bp < ap then none
    else
      match bos, aos with
      | [], [] => some ({ b with bids := brest, asks := arest }, none)
      | [], _ :: _ => some ({ b with bids := brest }, none)
      | _ :: _, [] => some ({ b with asks := arest }, none)
      | bo :: bos', ao :: aos' =>
        let tq := min bo.quantity ao.quantity
        let t : Trade := ⟨bo.id, ao.id, ap, tq, now⟩
        let newBids := if bo.quantity - tq = 0
          then (if bos' = [] then brest else (bp, bos') :: brest)
          else (bp, { bo with quantity := bo.quantity - tq } :: bos') :: brest
        let newAsks := if ao.quantity - tq = 0
          then (if aos' = [] then arest else (ap, aos') :: arest)
          else (ap, { ao with quantity := ao.quantity - tq } :: aos') :: arest
        some ({ b with bids := newBids, asks := newAsks }, some t)

/-- All orders resting on one side, best level first, FIFO within a level. -/
def ordersOf : PriceLevels → List Order
  | [] => []
  | (_, os) :: rest => os ++ ordersOf rest

/-- Resting orders plus price levels on one side. -/
def sideMeasure (ls : PriceLevels) : ℕ := (ordersOf ls).length + ls.length

/-- Loop measure: number of resting orders plus number of price levels, over
both sides.  Every executed iteration of the matching loop strictly decreases
it, which bounds the number of iterations. -/
def OrderBook.measure (b : OrderBook) : ℕ :=
  sideMeasure b.bids + sideMeasure b.asks

/-- The `while` loop of `OrderBook::matchOrders` with an explicit iteration
budget; the `Bool` is `true` when the exit condition was reached within `fuel`
executed iterations. -/
def matchLoop (now : ℤ) (fuel : ℕ) (b : OrderBook) : List Trade × OrderBook × Bool :=
  match matchStep b now with
  | none => ([], b, true)
  | some (b', ot) =>
    match fuel with
    | 0 => ([], b, false)
    | fuel' + 1 =>
      let r := matchLoop now fuel' b'
      (ot.toList ++ r.1, r.2)

/-- `OrderBook::matchOrders`: run the matching loop to completion (`measure`
iterations always suffice, proved below) and return the trades with the
mutated book. -/
def OrderBook.matchOrders (b : OrderBook) (now : ℤ) : List Trade × OrderBook :=
  let r := matchLoop now b.measure b
  (r.1, r.2.1)

/-- `OrderBook::getBids`: depth snapshot, price with aggregated quantity,
best (highest) price first. -/
def OrderBook.getBids (b : OrderBook) : List (ℚ × ℚ) :=
  b.bids.map (fun pl => (pl.1, (pl.2.map Order.quantity).sum))

/-- `OrderBook::getAsks`: depth snapshot, best (lowest) price first. -/
def OrderBook.getAsks (b : OrderBook) : List (ℚ × ℚ) :=
  b.asks.map (fun pl => (pl.1, (pl.2.map Order.quantity).sum))

/-- `OrderBook::getBestBid`: 0 when there are no bids. -/
def OrderBook.getBestBid (b : OrderBook) : ℚ :=
  match b.bids with
  | [] => 0
  | pl :: _ => pl.1

/-- `OrderBook::getBestAsk`: 0 when there are no asks. -/
def OrderBook.getBestAsk (b : OrderBook) : ℚ :=
  match b.asks with
  | [] => 0
  | pl :: _ => pl.1

/-- `OrderBook::reset`: clear both sides, restart the ID counter at 1. -/
def OrderBook.reset (_b : OrderBook) : OrderBook := ⟨[], [], 1⟩

/-- Every order rests at the level keyed by its own price (which `addOrder`
establishes and matching preserves). -/
def PricesMatch (ls : PriceLevels) : Prop :=
  ∀ pl ∈ ls, ∀ o ∈ pl.2, o.price = pl.1

instance (ls : PriceLevels) : Decidable (PricesMatch ls) :=
  decidable_of_iff (∀ pl ∈ ls, ∀ o ∈ pl.2, o.price = pl.1) Iff.rfl


/-- The calculator state after an `addPrice` call, also when the call was
rejected (the throw happens before any mutation). -/
def SMACalculator.addPriceB (s : SMACalculator) (price : ℚ) : SMACalculator :=
  match s.addPrice price with
  | .ok s' => s'
  | .error _ => s

/-- The ids of the orders resting on one side. -/
def idsOf (ls : PriceLevels) : List String := (ordersOf ls).map Order.id

/-- Well-formedness of one side: every resting order has strictly positive
remaining quantity and no price level has an empty order queue. -/
def GoodSide (ls : PriceLevels) : Prop :=
  (∀ o ∈ ordersOf ls, 0 < o.quantity) ∧ ∀ pl ∈ ls, pl.2 ≠ []

instance (ls : PriceLevels) : Decidable (GoodSide ls) := by
  rw [GoodSide]
  infer_instance

/-- Well-formedness of the whole book. -/
def Good (b : OrderBook) : Prop := GoodSide b.bids ∧ GoodSide b.asks

instance (b : OrderBook) : Decidable (Good b) := by
  rw [Good]
  infer_instance

/-- The book states reachable from a fresh `OrderBook` through any sequence
of `addOrder` (accepted or rejected), `matchOrders` and `reset` calls. -/
inductive Reachable : OrderBook → Prop where
  | init : Reachable OrderBook.init
  | add (b : OrderBook) (side : OrderSide) (price quantity : ℚ) (now : ℤ) :
      Reachable b → Reachable (b.addOrderB side price quantity now)
  | mtch (b : OrderBook) (now : ℤ) : Reachable b → Reachable (b.matchOrders now).2
  | reset (b : OrderBook) : Reachable b → Reachable b.reset

/-- Total quantity bought by order `i` over a list of trades. -/
def fillsBuy (ts : List Trade) (i : String) : ℚ :=
  ((ts.filter (fun t => t.buy_order_id = i)).map Trade.quantity).sum

/-- Total quantity sold by order `i` over a list of trades. -/
def fillsSell (ts : List Trade) (i : String) : ℚ :=
  ((ts.filter (fun t => t.sell_order_id = i)).map Trade.quantity).sum

/-- The FIFO order queue at price `p` (empty when the level is absent). -/
def levelAt (p : ℚ) : PriceLevels → List Order
  | [] => []
  | (q, os) :: rest => if q = p then os else levelAt p rest

/-- Bid levels are sorted strictly descending by price. -/
def SortedBids (ls : PriceLevels) : Prop := List.Pairwise (fun x y => y.1 < x.1) ls

instance (ls : PriceLevels) : Decidable (SortedBids ls) := by
  rw [SortedBids]
  infer_instance

/-- Ask levels are sorted strictly ascending by price. -/
def SortedAsks (ls : PriceLevels) : Prop := List.Pairwise (fun x y => x.1 < y.1) ls

instance (ls : PriceLevels) : Decidable (SortedAsks ls) := by
  rw [SortedAsks]
  infer_instance

/-- Total remaining quantity carried by orders with id `i` on one side. -/
def qtyOf (ls : PriceLevels) (i : String) : ℚ :=
  (((ordersOf ls).filter (fun o => o.id = i)).map Order.quantity).sum

/-- Decimal digit characters of `n`, most significant first (the digits that
`Nat.repr` renders). -/
def dChars (n : ℕ) : List Char :=
  if _h : n < 10 then [Nat.digitChar n]
  else dChars (n / 10) ++ [Nat.digitChar (n % 10)]
decreasing_by exact Nat.div_lt_self (by omega) (by omega)



theorem SMAInv_nil (w : ℕ) (_hw : 0 < w) :
    SMAInv w [] ⟨List.replicate w 0, w, 0, 0, 0⟩ := by
  refine ⟨rfl, List.length_replicate .., by simp, by simp, by simp, ?_⟩
  intro k hk
  simp at hk

theorem SMAInv_step (w : ℕ) (hw : 0 < w) (xs : List ℚ) (x : ℚ) (s : SMACalculator)
    (h : SMAInv w xs s) : SMAInv w (xs ++ [x]) (s.addPriceAux x) := by
  obtain ⟨hwin, hlen, hsize, hidx, hsum, hbuf⟩ := h
  refine ⟨hwin, ?_, ?_, ?_, ?_, ?_⟩
  · simp [SMACalculator.addPriceAux, List.length_set, hlen]
  · simp only [SMACalculator.addPriceAux, List.length_append, List.length_singleton]
    rw [hsize, hwin]
    split_ifs <;> omega
  · simp only [SMACalculator.addPriceAux, List.length_append, List.length_singleton]
    rw [hidx, hwin, Nat.mod_add_mod]
  · -- the running sum stays the sum of the last min(n, w) observations
    simp only [SMACalculator.addPriceAux, List.length_append, List.length_singleton]
    by_cases hfull : w ≤ xs.length
    · have hcond : s.current_size = s.window_size := by rw [hsize, hwin]; omega
      rw [if_pos hcond]
      have hmn1 : min (xs.length + 1) w = w := by omega
      rw [hmn1]
      have hdrop : (xs ++ [x]).drop (xs.length + 1 - w) =
          xs.drop (xs.length + 1 - w) ++ [x] :=
        List.drop_append_of_le_length (by omega)
      rw [hdrop, List.sum_append, List.sum_singleton]
      have hb := hbuf (w - 1) (by omega)
      have e1 : xs.length - 1 - (w - 1) = xs.length - w := by omega
      rw [e1] at hb
      have e3 : s.prices.getD s.index 0 = xs.getD (xs.length - w) 0 := by
        rw [hidx, Nat.mod_eq_sub_mod hfull]; exact hb
      rw [e3]
      have hlt : xs.length - w < xs.length := by omega
      have e4 : xs.length - min xs.length w = xs.length - w := by omega
      rw [hsum, e4, List.drop_eq_getElem_cons hlt, List.sum_cons,
        List.getD_eq_getElem xs 0 hlt]
      have e5 : xs.length - w + 1 = xs.length + 1 - w := by omega
      rw [e5]; ring
    · have hcond : ¬ s.current_size = s.window_size := by rw [hsize, hwin]; omega
      rw [if_neg hcond]
      have hmn1 : min (xs.length + 1) w = xs.length + 1 := by omega
      rw [hmn1]
      simp only [Nat.sub_self, List.drop_zero, List.sum_append, List.sum_singleton]
      have e4 : xs.length - min xs.length w = 0 := by omega
      rw [hsum, e4, List.drop_zero]
  · -- each of the last min(n, w) observations is still in its buffer slot
    intro k hk
    simp only [List.length_append, List.length_singleton] at hk
    simp only [SMACalculator.addPriceAux, List.length_append, List.length_singleton,
      Nat.add_sub_cancel]
    by_cases hk0 : k = 0
    · subst hk0
      simp only [Nat.sub_zero]
      rw [List.getD_eq_getElem?_getD, List.getD_eq_getElem?_getD, hidx,
        List.getElem?_set_self (by rw [hlen]; exact Nat.mod_lt _ hw),
        List.getElem?_concat_length]
    · have hk1 : 1 ≤ k := Nat.one_le_iff_ne_zero.mpr hk0
      have hkw : k < w := lt_of_lt_of_le hk (min_le_right _ _)
      have hkn : k ≤ xs.length := by omega
      have hne : s.index ≠ (xs.length - k) % w := by
        rw [hidx]
        intro heq
        have hmodeq : Nat.ModEq w (xs.length - k) xs.length := heq.symm
        have hdvd : w ∣ xs.length - (xs.length - k) :=
          (Nat.modEq_iff_dvd' (by omega)).mp hmodeq
        have e : xs.length - (xs.length - k) = k := by omega
        rw [e] at hdvd
        exact absurd (Nat.le_of_dvd (by omega) hdvd) (by omega)
      rw [List.getD_eq_getElem?_getD, List.getElem?_set_ne hne,
        ← List.getD_eq_getElem?_getD]
      have hb := hbuf (k - 1) (by omega)
      have e1 : xs.length - 1 - (k - 1) = xs.length - k := by omega
      rw [e1] at hb
      rw [hb]
      exact (List.getD_append xs [x] 0 (xs.length - k) (by omega)).symm

theorem feed_eq_foldl (s : SMACalculator) (xs : List ℚ) (h : ∀ x ∈ xs, 0 ≤ x) :
    s.feed xs = .ok (xs.foldl SMACalculator.addPriceAux s) := by
  induction xs generalizing s with
  | nil => rfl
  | cons y ys ih =>
    have hy : ¬ (y < 0) := not_lt.mpr (h y (List.mem_cons_self y ys))
    simp only [SMACalculator.feed, List.foldlM_cons, SMACalculator.addPrice, if_neg hy,
      List.foldl_cons]
    exact ih (s.addPriceAux y) (fun z hz => h z (List.mem_cons_of_mem y hz))

theorem SMAInv_foldl (w : ℕ) (hw : 0 < w) (xs : List ℚ) (s0 : SMACalculator)
    (h0 : SMAInv w [] s0) : SMAInv w xs (xs.foldl SMACalculator.addPriceAux s0) := by
  induction xs using List.reverseRecOn with
  | nil => simpa using h0
  | append_singleton ys y ih =>
    rw [List.foldl_concat]
    exact SMAInv_step w hw ys y _ ih

/-- C1: for every sequence of non-negative observations fed through `addPrice`
to an `SMACalculator` constructed with positive window size `w`, construction
and every add succeed, `size()` equals `min (number of observations) w`, and
`getSMA()` equals the arithmetic mean of the last `min (number of
observations) w` observations.  Quantifying over all observation lists covers
the state after each call. -/
theorem C1_sma_mean (w : ℕ) (hw : 0 < w) (xs : List ℚ) (hxs : ∀ x ∈ xs, 0 ≤ x) :
    ∃ s, runSMA w xs = Except.ok s ∧
      s.size = min xs.length w ∧
      s.getSMA = (xs.drop (xs.length - min xs.length w)).sum / (min xs.length w : ℚ) := by
  have hmk : SMACalculator.mk? w = .ok ⟨List.replicate w 0, w, 0, 0, 0⟩ := by
    rw [SMACalculator.mk?, if_neg (by omega)]
  have hinv := SMAInv_foldl w hw xs _ (SMAInv_nil w hw)
  obtain ⟨_hwin, _hlen, hsize, _hidx, hsum, _hbuf⟩ := hinv
  refine ⟨_, ?_, hsize, ?_⟩
  · rw [runSMA, hmk]
    exact feed_eq_foldl _ xs hxs
  · rw [SMACalculator.getSMA, hsize, hsum]
    by_cases hn : xs.length = 0
    · rw [if_pos (by omega)]
      have e : min xs.length w = 0 := by omega
      rw [e]
      simp
    · rw [if_neg (by omega), Nat.cast_min]

/-- Witness for C1 with window 3 and observations [100, 102, 98, 104]. -/
theorem C1_sma_mean_witness :
    ∃ s, runSMA 3 [100, 102, 98, 104] = Except.ok s ∧
      s.size = min (List.length [(100 : ℚ), 102, 98, 104]) 3 ∧
      s.getSMA = (List.drop (List.length [(100 : ℚ), 102, 98, 104] -
          min (List.length [(100 : ℚ), 102, 98, 104]) 3) [(100 : ℚ), 102, 98, 104]).sum /
        (min (List.length [(100 : ℚ), 102, 98, 104]) 3 : ℚ) :=
  C1_sma_mean 3 (by norm_num) [100, 102, 98, 104] (by decide)

/-- The loop exits exactly when a side is empty or the best bid price is
below the best ask price. -/
theorem matchStep_none_cases (b : OrderBook) (now : ℤ) (h : matchStep b now = none) :
    b.bids = [] ∨ b.asks = [] ∨
      ∃ bp bos brest ap aos arest,
        b.bids = (bp, bos) :: brest ∧ b.asks = (ap, aos) :: arest ∧ bp < ap := by
  rcases hb : b.bids with _ | ⟨⟨bp, bos⟩, brest⟩
  · exact Or.inl rfl
  rcases ha : b.asks with _ | ⟨⟨ap, aos⟩, arest⟩
  · exact Or.inr (Or.inl rfl)
  refine Or.inr (Or.inr ⟨bp, bos, brest, ap, aos, arest, rfl, rfl, ?_⟩)
  rw [matchStep.eq_def, hb, ha] at h
  dsimp only at h
  by_cases hlt : bp < ap
  · exact hlt
  · rw [if_neg hlt] at h
    rcases bos with _ | ⟨bo, bos'⟩ <;> rcases aos with _ | ⟨ao, aos'⟩ <;> simp at h

/-- Conversely, the loop keeps running while both sides are non-empty and the
book is crossed (best bid ≥ best ask). -/
theorem matchStep_isSome (b : OrderBook) (now : ℤ) (bp : ℚ) (bos : List Order)
    (brest : PriceLevels) (ap : ℚ) (aos : List Order) (arest : PriceLevels)
    (hb : b.bids = (bp, bos) :: brest) (ha : b.asks = (ap, aos) :: arest)
    (hcross : ap ≤ bp) : matchStep b now ≠ none := by
  rw [matchStep.eq_def, hb, ha]
  dsimp only
  rw [if_neg (not_lt.mpr hcross)]
  rcases bos with _ | ⟨bo, bos'⟩ <;> rcases aos with _ | ⟨ao, aos'⟩ <;> simp

/-- Full description of a loop iteration that executes a trade: the book is
crossed, the trade happens at the best ask price between the two head orders,
both quantities shrink by `min`, filled orders are removed, emptied levels
are erased, and nothing else changes. -/
theorem matchStep_trade_cases (b : OrderBook) (now : ℤ) (b' : OrderBook) (t : Trade)
    (h : matchStep b now = some (b', some t)) :
    ∃ bp bo bos' brest ap ao aos' arest,
      b.bids = (bp, bo :: bos') :: brest ∧
      b.asks = (ap, ao :: aos') :: arest ∧
      ap ≤ bp ∧
      t = ⟨bo.id, ao.id, ap, min bo.quantity ao.quantity, now⟩ ∧
      b'.bids = (if bo.quantity - min bo.quantity ao.quantity = 0
        then (if bos' = [] then brest else (bp, bos') :: brest)
        else (bp, { bo with quantity := bo.quantity - min bo.quantity ao.quantity } ::
          bos') :: brest) ∧
      b'.asks = (if ao.quantity - min bo.quantity ao.quantity = 0
        then (if aos' = [] then arest else (ap, aos') :: arest)
        else (ap, { ao with quantity := ao.quantity - min bo.quantity ao.quantity } ::
          aos') :: arest) ∧
      b'.next_order_id = b.next_order_id := by
  rcases hb : b.bids with _ | ⟨⟨bp, bos⟩, brest⟩
  · rw [matchStep.eq_def, hb] at h; dsimp only at h; exact absurd h (by simp)
  rcases ha : b.asks with _ | ⟨⟨ap, aos⟩, arest⟩
  · rw [matchStep.eq_def, hb, ha] at h; dsimp only at h; exact absurd h (by simp)
  rw [matchStep.eq_def, hb, ha] at h
  dsimp only at h
  by_cases hlt : bp < ap
  · rw [if_pos hlt] at h; exact absurd h (by simp)
  rw [if_neg hlt] at h
  rcases bos with _ | ⟨bo, bos'⟩ <;> rcases aos with _ | ⟨ao, aos'⟩ <;> dsimp only at h
  · simp at h
  · simp at h
  · simp at h
  · simp only [Option.some.injEq, Prod.mk.injEq] at h
    obtain ⟨hbk, ht⟩ := h
    subst hbk
    subst ht
    exact ⟨bp, bo, bos', brest, ap, ao, aos', arest, rfl, rfl, not_lt.mp hlt,
      rfl, rfl, rfl, rfl⟩

/-- Full description of a defensive-cleanup iteration: the counter is kept
and each side either loses one empty best level or is untouched (at least one
side loses a level). -/
theorem matchStep_cleanup_cases (b : OrderBook) (now : ℤ) (b' : OrderBook)
    (h : matchStep b now = some (b', none)) :
    b'.next_order_id = b.next_order_id ∧
    ((∃ bp brest, b.bids = (bp, []) :: brest ∧ b'.bids = brest) ∨ b'.bids = b.bids) ∧
    ((∃ ap arest, b.asks = (ap, []) :: arest ∧ b'.asks = arest) ∨ b'.asks = b.asks) ∧
    (b'.bids ≠ b.bids ∨ b'.asks ≠ b.asks) := by
  rcases hb : b.bids with _ | ⟨⟨bp, bos⟩, brest⟩
  · rw [matchStep.eq_def, hb] at h; dsimp only at h; exact absurd h (by simp)
  rcases ha : b.asks with _ | ⟨⟨ap, aos⟩, arest⟩
  · rw [matchStep.eq_def, hb, ha] at h; dsimp only at h; exact absurd h (by simp)
  rw [matchStep.eq_def, hb, ha] at h
  dsimp only at h
  by_cases hlt : bp < ap
  · rw [if_pos hlt] at h; exact absurd h (by simp)
  rw [if_neg hlt] at h
  rcases bos with _ | ⟨bo, bos'⟩ <;> rcases aos with _ | ⟨ao, aos'⟩ <;> dsimp only at h
  · simp only [Option.some.injEq, Prod.mk.injEq] at h
    obtain ⟨hbk, -⟩ := h
    subst hbk
    exact ⟨rfl, Or.inl ⟨bp, brest, rfl, rfl⟩, Or.inl ⟨ap, arest, rfl, rfl⟩,
      Or.inl (by simp)⟩
  · simp only [Option.some.injEq, Prod.mk.injEq] at h
    obtain ⟨hbk, -⟩ := h
    subst hbk
    exact ⟨rfl, Or.inl ⟨bp, brest, rfl, rfl⟩, Or.inr rfl, Or.inl (by simp)⟩
  · simp only [Option.some.injEq, Prod.mk.injEq] at h
    obtain ⟨hbk, -⟩ := h
    subst hbk
    exact ⟨rfl, Or.inr rfl, Or.inl ⟨ap, arest, rfl, rfl⟩, Or.inr (by simp)⟩
  · simp at h

theorem sideMeasure_cons (p : ℚ) (os : List Order) (rest : PriceLevels) :
    sideMeasure ((p, os) :: rest) = os.length + 1 + sideMeasure rest := by
  simp only [sideMeasure, ordersOf, List.length_append, List.length_cons]
  omega

/-- Every executed iteration of the matching loop strictly decreases the
measure: a cleanup iteration erases a level, a trade iteration removes at
least the smaller of the two head orders. -/
theorem matchStep_measure_lt (b : OrderBook) (now : ℤ) (b' : OrderBook)
    (ot : Option Trade) (h : matchStep b now = some (b', ot)) :
    b'.measure < b.measure := by
  rcases ot with _ | t
  · obtain ⟨-, hbd, had, hne⟩ := matchStep_cleanup_cases b now b' h
    rcases hbd with ⟨bp, brest, hb1, hb2⟩ | hb2 <;>
      rcases had with ⟨ap, arest, ha1, ha2⟩ | ha2
    · simp only [OrderBook.measure, hb1, ha1, hb2, ha2, sideMeasure_cons,
        List.length_nil]
      omega
    · simp only [OrderBook.measure, hb1, hb2, ha2, sideMeasure_cons, List.length_nil]
      omega
    · simp only [OrderBook.measure, ha1, hb2, ha2, sideMeasure_cons, List.length_nil]
      omega
    · rcases hne with h1 | h1
      · exact absurd hb2 h1
      · exact absurd ha2 h1
  · obtain ⟨bp, bo, bos', brest, ap, ao, aos', arest, hb, ha, -, -, hb', ha', -⟩ :=
      matchStep_trade_cases b now b' t h
    have hbound_b : sideMeasure b'.bids ≤ bos'.length + 1 + 1 + sideMeasure brest := by
      rw [hb']
      split_ifs <;> (try simp only [sideMeasure_cons, List.length_cons]) <;> omega
    have hbound_a : sideMeasure b'.asks ≤ aos'.length + 1 + 1 + sideMeasure arest := by
      rw [ha']
      split_ifs <;> (try simp only [sideMeasure_cons, List.length_cons]) <;> omega
    have hstrict : sideMeasure b'.bids ≤ bos'.length + 1 + sideMeasure brest ∨
        sideMeasure b'.asks ≤ aos'.length + 1 + sideMeasure arest := by
      rcases le_total bo.quantity ao.quantity with hle | hle
      · left
        have h0 : bo.quantity - min bo.quantity ao.quantity = 0 := by
          rw [min_eq_left hle, sub_self]
        rw [hb', if_pos h0]
        split_ifs <;> (try simp only [sideMeasure_cons, List.length_cons]) <;> omega
      · right
        have h0 : ao.quantity - min bo.quantity ao.quantity = 0 := by
          rw [min_eq_right hle, sub_self]
        rw [ha', if_pos h0]
        split_ifs <;> (try simp only [sideMeasure_cons, List.length_cons]) <;> omega
    simp only [OrderBook.measure, hb, ha, sideMeasure_cons, List.length_cons]
    rcases hstrict with h1 | h1 <;> omega

/-- Fuel at least `measure` always lets the matching loop reach its exit
condition. -/
theorem matchLoop_fin (now : ℤ) (fuel : ℕ) (b : OrderBook)
    (hfuel : b.measure ≤ fuel) : (matchLoop now fuel b).2.2 = true := by
  induction fuel generalizing b with
  | zero =>
    rw [matchLoop.eq_def]
    rcases hs : matchStep b now with _ | ⟨b', ot⟩
    · rfl
    · exact absurd (matchStep_measure_lt b now b' ot hs) (by omega)
  | succ fuel ih =>
    rw [matchLoop.eq_def]
    rcases hs : matchStep b now with _ | ⟨b', ot⟩
    · rfl
    · dsimp only
      exact ih b' (by have := matchStep_measure_lt b now b' ot hs; omega)

/-- When the loop reports completion, the final book no longer steps. -/
theorem matchLoop_final_none (now : ℤ) (fuel : ℕ) (b : OrderBook)
    (h : (matchLoop now fuel b).2.2 = true) :
    matchStep (matchLoop now fuel b).2.1 now = none := by
  induction fuel generalizing b with
  | zero =>
    rw [matchLoop.eq_def] at h ⊢
    rcases hs : matchStep b now with _ | ⟨b', ot⟩
    · dsimp only
      exact hs
    · rw [hs] at h
      dsimp only at h
      simp at h
  | succ fuel ih =>
    rw [matchLoop.eq_def] at h ⊢
    rcases hs : matchStep b now with _ | ⟨b', ot⟩
    · dsimp only
      exact hs
    · rw [hs] at h
      dsimp only at h ⊢
      exact ih b' h

/-- C8: `matchOrders` terminates on every book state: the matching loop
reaches its exit condition within a number of iterations bounded by the
number of resting orders plus the number of price levels, because every
executed iteration either erases an empty level or removes at least the
smaller head order. -/
theorem C8_match_terminates (b : OrderBook) (now : ℤ) :
    (matchLoop now ((ordersOf b.bids).length + (ordersOf b.asks).length +
      (b.bids.length + b.asks.length)) b).2.2 = true := by
  apply matchLoop_fin
  simp only [OrderBook.measure, sideMeasure]
  omega

/-- C10: whenever `matchOrders` returns, the book is not crossed: either a
side is empty or the best bid price is strictly below the best ask price. -/
theorem C10_uncrossed (b : OrderBook) (now : ℤ) :
    (b.matchOrders now).2.bids = [] ∨ (b.matchOrders now).2.asks = [] ∨
      (b.matchOrders now).2.getBestBid < (b.matchOrders now).2.getBestAsk := by
  have hfin := matchLoop_fin now b.measure b (le_refl _)
  have hnone := matchLoop_final_none now b.measure b hfin
  rcases matchStep_none_cases _ now hnone with h | h |
    ⟨bp, bos, brest, ap, aos, arest, hb, ha, hlt⟩
  · exact Or.inl h
  · exact Or.inr (Or.inl h)
  · refine Or.inr (Or.inr ?_)
    have hbb : (b.matchOrders now).2.getBestBid = bp := by
      rw [OrderBook.getBestBid.eq_def]
      exact hb ▸ rfl
    have hba : (b.matchOrders now).2.getBestAsk = ap := by
      rw [OrderBook.getBestAsk.eq_def]
      exact ha ▸ rfl
    rw [hbb, hba]
    exact hlt

/-- The loop exits immediately when a side is empty or the book is not
crossed. -/
theorem matchStep_none_of (b : OrderBook) (now : ℤ)
    (h : b.bids = [] ∨ b.asks = [] ∨
      ∃ bp bos brest ap aos arest,
        b.bids = (bp, bos) :: brest ∧ b.asks = (ap, aos) :: arest ∧ bp < ap) :
    matchStep b now = none := by
  rcases h with hb | ha | ⟨bp, bos, brest, ap, aos, arest, hb, ha, hlt⟩
  · rw [matchStep.eq_def, hb]
  · rcases hb : b.bids with _ | ⟨⟨bp, bos⟩, brest⟩
    · rw [matchStep.eq_def, hb]
    · rw [matchStep.eq_def, hb, ha]
  · rw [matchStep.eq_def, hb, ha]
    dsimp only
    rw [if_pos hlt]

/-- A book on which the loop exits at once is returned unchanged, with no
trades. -/
theorem matchOrders_of_none (b : OrderBook) (now : ℤ)
    (h : matchStep b now = none) : b.matchOrders now = ([], b) := by
  simp only [OrderBook.matchOrders]
  rw [matchLoop.eq_def, h]

/-- C3: `matchOrders` never records a trade at a step where the best bid is
strictly below the best ask (every trade step has best ask ≤ best bid); and
when at entry a side is empty or best bid < best ask, it returns no trades
and leaves the book unchanged. -/
theorem C3_no_trade_when_uncrossed :
    (∀ (b : OrderBook) (now : ℤ) (b' : OrderBook) (t : Trade),
      matchStep b now = some (b', some t) →
      ∃ bp bos brest ap aos arest,
        b.bids = (bp, bos) :: brest ∧ b.asks = (ap, aos) :: arest ∧ ap ≤ bp) ∧
    (∀ (b : OrderBook) (now : ℤ),
      (b.bids = [] ∨ b.asks = [] ∨
        ∃ bp bos brest ap aos arest,
          b.bids = (bp, bos) :: brest ∧ b.asks = (ap, aos) :: arest ∧ bp < ap) →
      b.matchOrders now = ([], b)) := by
  constructor
  · intro b now b' t h
    obtain ⟨bp, bo, bos', brest, ap, ao, aos', arest, hb, ha, hle, -⟩ :=
      matchStep_trade_cases b now b' t h
    exact ⟨bp, bo :: bos', brest, ap, ao :: aos', arest, hb, ha, hle⟩
  · intro b now h
    exact matchOrders_of_none b now (matchStep_none_of b now h)

/-- Witness for C3 on a concrete uncrossed book (bid 1 below ask 2): no
trades, book unchanged. -/
theorem C3_no_trade_when_uncrossed_witness :
    OrderBook.matchOrders
        ⟨[((1 : ℚ), [⟨"ORD1", .BUY, 1, 1, 0⟩])],
         [((2 : ℚ), [⟨"ORD2", .SELL, 2, 1, 0⟩])], 3⟩ 0 =
      ([], ⟨[((1 : ℚ), [⟨"ORD1", .BUY, 1, 1, 0⟩])],
        [((2 : ℚ), [⟨"ORD2", .SELL, 2, 1, 0⟩])], 3⟩) :=
  C3_no_trade_when_uncrossed.2 _ 0
    (Or.inr (Or.inr ⟨1, [⟨"ORD1", .BUY, 1, 1, 0⟩], [], 2, [⟨"ORD2", .SELL, 2, 1, 0⟩],
      [], rfl, rfl, by norm_num⟩))

theorem ordersOf_cons (p : ℚ) (os : List Order) (rest : PriceLevels) :
    ordersOf ((p, os) :: rest) = os ++ ordersOf rest := rfl

/-- A loop iteration only ever shrinks orders: every order resting on the ask
side afterwards has the id and price of an ask order resting before. -/
theorem matchStep_asks_trace (b : OrderBook) (now : ℤ) (b' : OrderBook)
    (ot : Option Trade) (h : matchStep b now = some (b', ot)) :
    ∀ o' ∈ ordersOf b'.asks,
      ∃ o ∈ ordersOf b.asks, o.id = o'.id ∧ o.price = o'.price := by
  intro o' ho'
  rcases ot with _ | t
  · obtain ⟨-, -, had, -⟩ := matchStep_cleanup_cases b now b' h
    rcases had with ⟨ap, arest, ha1, ha2⟩ | ha2
    · rw [ha2] at ho'
      exact ⟨o', by rw [ha1, ordersOf_cons]; exact List.mem_append_right _ ho', rfl, rfl⟩
    · rw [ha2] at ho'
      exact ⟨o', ho', rfl, rfl⟩
  · obtain ⟨bp, bo, bos', brest, ap, ao, aos', arest, hb, ha, -, -, -, ha', -⟩ :=
      matchStep_trade_cases b now b' t h
    rw [ha'] at ho'
    rw [ha, ordersOf_cons]
    split_ifs at ho' with h1 h2
    · exact ⟨o', List.mem_append_right _ ho', rfl, rfl⟩
    · rw [ordersOf_cons, List.mem_append] at ho'
      rcases ho' with ho' | ho'
      · exact ⟨o', List.mem_append_left _ (List.mem_cons_of_mem ao ho'), rfl, rfl⟩
      · exact ⟨o', List.mem_append_right _ ho', rfl, rfl⟩
    · rw [ordersOf_cons, List.mem_append, List.mem_cons] at ho'
      rcases ho' with (rfl | ho') | ho'
      · exact ⟨ao, List.mem_append_left _ (List.mem_cons_self ao aos'), rfl, rfl⟩
      · exact ⟨o', List.mem_append_left _ (List.mem_cons_of_mem ao ho'), rfl, rfl⟩
      · exact ⟨o', List.mem_append_right _ ho', rfl, rfl⟩

/-- A loop iteration preserves `PricesMatch` on the ask side. -/
theorem matchStep_asks_pricesMatch (b : OrderBook) (now : ℤ) (b' : OrderBook)
    (ot : Option Trade) (h : matchStep b now = some (b', ot))
    (hp : PricesMatch b.asks) : PricesMatch b'.asks := by
  rcases ot with _ | t
  · obtain ⟨-, -, had, -⟩ := matchStep_cleanup_cases b now b' h
    rcases had with ⟨ap, arest, ha1, ha2⟩ | ha2
    · rw [ha2]
      intro pl hpl
      exact hp pl (by rw [ha1]; exact List.mem_cons_of_mem _ hpl)
    · rw [ha2]; exact hp
  · obtain ⟨bp, bo, bos', brest, ap, ao, aos', arest, hb, ha, -, -, -, ha', -⟩ :=
      matchStep_trade_cases b now b' t h
    have hrest : PricesMatch arest := by
      intro pl hpl
      exact hp pl (by rw [ha]; exact List.mem_cons_of_mem _ hpl)
    have hlevel : ∀ o ∈ ao :: aos', o.price = ap := by
      intro o ho
      exact hp (ap, ao :: aos') (by rw [ha]; exact List.mem_cons_self _ _) o ho
    rw [ha']
    split_ifs with h1 h2
    · exact hrest
    · intro pl hpl
      rcases List.mem_cons.mp hpl with rfl | hpl
      · intro o ho
        exact hlevel o (List.mem_cons_of_mem ao ho)
      · exact hrest pl hpl
    · intro pl hpl
      rcases List.mem_cons.mp hpl with rfl | hpl
      · intro o ho
        rcases List.mem_cons.mp ho with rfl | ho
        · exact hlevel ao (List.mem_cons_self ao aos')
        · exact hlevel o (List.mem_cons_of_mem ao ho)
      · exact hrest pl hpl

/-- Through the whole loop, every trade is priced at, and sells against, an
ask order that was resting in the entry book. -/
theorem matchLoop_trades_ask_price (now : ℤ) (fuel : ℕ) (b : OrderBook)
    (hp : PricesMatch b.asks) :
    ∀ t ∈ (matchLoop now fuel b).1,
      ∃ o ∈ ordersOf b.asks, t.sell_order_id = o.id ∧ t.price = o.price := by
  induction fuel generalizing b with
  | zero =>
    rw [matchLoop.eq_def]
    rcases hs : matchStep b now with _ | ⟨b', ot⟩
    · intro t ht; simp at ht
    · intro t ht; dsimp only at ht; simp at ht
  | succ fuel ih =>
    rw [matchLoop.eq_def]
    rcases hs : matchStep b now with _ | ⟨b', ot⟩
    · intro t ht; simp at ht
    · intro t ht
      dsimp only at ht
      rw [List.mem_append] at ht
      rcases ht with ht | ht
      · rcases ot with _ | t0
        · simp at ht
        · simp only [Option.toList_some, List.mem_singleton] at ht
          subst ht
          obtain ⟨bp, bo, bos', brest, ap, ao, aos', arest, hb, ha, -, hteq, -, -, -⟩ :=
            matchStep_trade_cases b now b' _ hs
          have hao : ao.price = ap :=
            hp (ap, ao :: aos') (by rw [ha]; exact List.mem_cons_self _ _) ao
              (List.mem_cons_self _ _)
          refine ⟨ao, ?_, ?_, ?_⟩
          · rw [ha, ordersOf_cons]
            exact List.mem_append_left _ (List.mem_cons_self ao aos')
          · rw [hteq]
          · rw [hteq, hao]
      · have hp' := matchStep_asks_pricesMatch b now b' ot hs hp
        obtain ⟨o', ho', hid, hprice⟩ := ih b' hp' t ht
        obtain ⟨o, ho, hid2, hprice2⟩ := matchStep_asks_trace b now b' ot hs o' ho'
        exact ⟨o, ho, by rw [hid, hid2], by rw [hprice, hprice2]⟩

/-- C2: every trade executes at the price of the resting ask order it matches
— at each trade step the price is the best ask level's price and the seller
is that level's head order, and across a whole `matchOrders` call every trade
carries the id and the price of an ask order that was resting in the book
(never the bid's price: the bid order never sets the price). -/
theorem C2_trade_at_ask_price :
    (∀ (b : OrderBook) (now : ℤ) (b' : OrderBook) (t : Trade),
      matchStep b now = some (b', some t) →
      ∃ ap aos arest, b.asks = (ap, aos) :: arest ∧ t.price = ap ∧
        ∃ ao aos', aos = ao :: aos' ∧ t.sell_order_id = ao.id) ∧
    (∀ (b : OrderBook) (now : ℤ), PricesMatch b.asks →
      ∀ t ∈ (b.matchOrders now).1,
        ∃ o ∈ ordersOf b.asks, t.sell_order_id = o.id ∧ t.price = o.price) := by
  constructor
  · intro b now b' t h
    obtain ⟨bp, bo, bos', brest, ap, ao, aos', arest, hb, ha, -, hteq, -, -, -⟩ :=
      matchStep_trade_cases b now b' t h
    exact ⟨ap, ao :: aos', arest, ha, by rw [hteq], ao, aos', rfl, by rw [hteq]⟩
  · intro b now hp t ht
    exact matchLoop_trades_ask_price now b.measure b hp t ht

unseal Rat.sub in
/-- Witness for C2 on a concrete crossed book: bid 2×5 against ask 1×3 trades
at the ask's price 1 with the ask's id. -/
theorem C2_trade_at_ask_price_witness :
    ∃ o ∈ ordersOf (OrderBook.asks
        ⟨[((2 : ℚ), [⟨"B1", .BUY, 2, 5, 0⟩])], [((1 : ℚ), [⟨"A1", .SELL, 1, 3, 0⟩])], 3⟩),
      Trade.sell_order_id ⟨"B1", "A1", 1, 3, 7⟩ = o.id ∧
        Trade.price ⟨"B1", "A1", 1, 3, 7⟩ = o.price :=
  C2_trade_at_ask_price.2
    ⟨[((2 : ℚ), [⟨"B1", .BUY, 2, 5, 0⟩])], [((1 : ℚ), [⟨"A1", .SELL, 1, 3, 0⟩])], 3⟩ 7
    (by decide) ⟨"B1", "A1", 1, 3, 7⟩ (by decide)

/-- C6: construction with window size 0, a negative observation, and an order
with non-positive price or quantity are each rejected with the source's
invalid-argument message; each check precedes any mutation, so the rejected
call leaves the component's entire state unchanged. -/
theorem C6_invalid_arguments :
    SMACalculator.mk? 0 = Except.error "Window size must be greater than 0" ∧
    (∀ (s : SMACalculator) (p : ℚ), p < 0 →
      s.addPrice p = Except.error "Price cannot be negative" ∧ s.addPriceB p = s) ∧
    (∀ (b : OrderBook) (side : OrderSide) (p q : ℚ) (now : ℤ), p ≤ 0 ∨ q ≤ 0 →
      b.addOrder side p q now = Except.error "Price and quantity must be positive" ∧
        b.addOrderB side p q now = b) := by
  refine ⟨rfl, ?_, ?_⟩
  · intro s p hp
    have he : s.addPrice p = Except.error "Price cannot be negative" := by
      rw [SMACalculator.addPrice, if_pos hp]
    exact ⟨he, by rw [SMACalculator.addPriceB, he]⟩
  · intro b side p q now h
    have he : b.addOrder side p q now =
        Except.error "Price and quantity must be positive" := by
      rw [OrderBook.addOrder, if_pos h]
    exact ⟨he, by rw [OrderBook.addOrderB, he]⟩

/-- Witness for C6: a negative observation and a zero-price order are both
rejected, the book untouched. -/
theorem C6_invalid_arguments_witness :
    SMACalculator.addPrice ⟨[0, 0], 2, 0, 0, 0⟩ (-1) =
      Except.error "Price cannot be negative" ∧
    OrderBook.addOrderB OrderBook.init .BUY 0 1 0 = OrderBook.init :=
  ⟨(C6_invalid_arguments.2.1 ⟨[0, 0], 2, 0, 0, 0⟩ (-1) (by norm_num)).1,
   (C6_invalid_arguments.2.2 OrderBook.init .BUY 0 1 0 (Or.inl (by norm_num))).2⟩

theorem digitChar_inj_lt : ∀ a < 10, ∀ b < 10, Nat.digitChar a = Nat.digitChar b → a = b := by
  decide

theorem toDigitsCore_eq_dChars : ∀ (f n : ℕ) (acc : List Char), n < f →
    Nat.toDigitsCore 10 f n acc = dChars n ++ acc := by
  intro f
  induction f with
  | zero => intro n acc h; omega
  | succ f ih =>
    intro n acc h
    rw [Nat.toDigitsCore]
    by_cases h10 : n / 10 = 0
    · have hn : n < 10 := by omega
      rw [if_pos h10, dChars.eq_def n, dif_pos hn, Nat.mod_eq_of_lt hn]
      rfl
    · have hlt : n / 10 < f := by omega
      rw [if_neg h10, ih (n / 10) (Nat.digitChar (n % 10) :: acc) hlt,
        dChars.eq_def n, dif_neg (by omega : ¬ n < 10)]
      simp

theorem dChars_ne_nil (n : ℕ) : dChars n ≠ [] := by
  rw [dChars.eq_def]
  split_ifs <;> simp

theorem dChars_inj : ∀ m n : ℕ, dChars m = dChars n → m = n := by
  intro m
  induction m using Nat.strong_induction_on with
  | _ m ih =>
    intro n h
    by_cases hm : m < 10 <;> by_cases hn : n < 10
    · rw [dChars.eq_def m, dif_pos hm, dChars.eq_def n, dif_pos hn] at h
      simp only [List.cons.injEq] at h
      exact digitChar_inj_lt m hm n hn h.1
    · rw [dChars.eq_def m, dif_pos hm, dChars.eq_def n, dif_neg hn] at h
      have hl := congrArg List.length h
      simp only [List.length_append, List.length_cons, List.length_nil] at hl
      exact absurd (List.length_eq_zero.mp (by omega)) (dChars_ne_nil (n / 10))
    · rw [dChars.eq_def m, dif_neg hm, dChars.eq_def n, dif_pos hn] at h
      have hl := congrArg List.length h
      simp only [List.length_append, List.length_cons, List.length_nil] at hl
      exact absurd (List.length_eq_zero.mp (by omega)) (dChars_ne_nil (m / 10))
    · rw [dChars.eq_def m, dif_neg hm, dChars.eq_def n, dif_neg hn] at h
      obtain ⟨h1, h2⟩ := List.append_inj' h (by simp)
      have hd : m / 10 = n / 10 := ih (m / 10) (by omega) (n / 10) h1
      simp only [List.cons.injEq] at h2
      have hm2 : m % 10 = n % 10 :=
        digitChar_inj_lt (m % 10) (by omega) (n % 10) (by omega) h2.1
      omega

theorem natRepr_inj (m n : ℕ) (h : Nat.repr m = Nat.repr n) : m = n := by
  rw [Nat.repr, Nat.repr] at h
  have h2 : Nat.toDigits 10 m = Nat.toDigits 10 n := by
    have hd := congrArg String.data h
    simpa [List.asString] using hd
  rw [Nat.toDigits, Nat.toDigits, toDigitsCore_eq_dChars (m + 1) m [] (by omega),
    toDigitsCore_eq_dChars (n + 1) n [] (by omega)] at h2
  simp only [List.append_nil] at h2
  exact dChars_inj m n h2

theorem orderId_ne (m n : ℕ) (h : m ≠ n) :
    "ORD" ++ Nat.repr m ≠ "ORD" ++ Nat.repr n := by
  intro he
  apply h
  apply natRepr_inj
  rw [String.ext_iff, String.data_append, String.data_append] at he
  exact String.ext_iff.mpr (List.append_cancel_left he)

theorem addOrder_ok (b : OrderBook) (side : OrderSide) (p q : ℚ) (now : ℤ)
    (oid : String) (b' : OrderBook)
    (h : b.addOrder side p q now = Except.ok (oid, b')) :
    oid = "ORD" ++ Nat.repr b.next_order_id ∧
      b'.next_order_id = b.next_order_id + 1 := by
  rw [OrderBook.addOrder] at h
  by_cases hc : p ≤ 0 ∨ q ≤ 0
  · rw [if_pos hc] at h
    exact absurd h (by simp)
  · rw [if_neg hc] at h
    cases side <;>
      simp only [OrderBook.generateOrderId, Except.ok.injEq, Prod.mk.injEq] at h <;>
      obtain ⟨h1, h2⟩ := h <;>
      subst h1 <;> rw [← h2]
    · exact ⟨rfl, rfl⟩
    · exact ⟨rfl, rfl⟩

theorem matchStep_next (b : OrderBook) (now : ℤ) (b' : OrderBook) (ot : Option Trade)
    (h : matchStep b now = some (b', ot)) : b'.next_order_id = b.next_order_id := by
  rcases ot with _ | t
  · exact (matchStep_cleanup_cases b now b' h).1
  · obtain ⟨-, -, -, -, -, -, -, -, -, -, -, -, -, -, hn⟩ :=
      matchStep_trade_cases b now b' t h
    exact hn

theorem matchLoop_next (now : ℤ) (fuel : ℕ) (b : OrderBook) :
    ((matchLoop now fuel b).2.1).next_order_id = b.next_order_id := by
  induction fuel generalizing b with
  | zero =>
    rw [matchLoop.eq_def]
    rcases hs : matchStep b now with _ | ⟨b', ot⟩
    · rfl
    · rfl
  | succ fuel ih =>
    rw [matchLoop.eq_def]
    rcases hs : matchStep b now with _ | ⟨b', ot⟩
    · rfl
    · dsimp only
      rw [ih b']
      exact matchStep_next b now b' ot hs

/-- C9: order IDs are the string "ORD" followed by the current counter value;
the counter starts at 1, is bumped by each successful `addOrder`, is left
alone by matching, and is restarted at 1 (with both sides cleared) by
`reset`; distinct counter values give distinct ID strings, so within one book
lifetime no ID is ever reused. -/
theorem C9_order_ids :
    OrderBook.init.next_order_id = 1 ∧
    (∀ (b : OrderBook) (side : OrderSide) (p q : ℚ) (now : ℤ) (oid : String)
        (b' : OrderBook), b.addOrder side p q now = Except.ok (oid, b') →
      oid = "ORD" ++ Nat.repr b.next_order_id ∧
        b'.next_order_id = b.next_order_id + 1) ∧
    (∀ (b : OrderBook) (now : ℤ),
      ((b.matchOrders now).2).next_order_id = b.next_order_id) ∧
    (∀ b : OrderBook,
      b.reset.next_order_id = 1 ∧ b.reset.bids = [] ∧ b.reset.asks = []) ∧
    (∀ m n : ℕ, m ≠ n → "ORD" ++ Nat.repr m ≠ "ORD" ++ Nat.repr n) := by
  refine ⟨rfl, addOrder_ok, ?_, ?_, orderId_ne⟩
  · intro b now
    exact matchLoop_next now b.measure b
  · intro b
    exact ⟨rfl, rfl, rfl⟩

/-- Witness for C9: the first order on a fresh book gets id "ORD1" and bumps
the counter to 2; "ORD1" and "ORD2" differ. -/
theorem C9_order_ids_witness :
    ("ORD1" = "ORD" ++ Nat.repr OrderBook.init.next_order_id ∧
      (OrderBook.addOrderB OrderBook.init .BUY 1 1 0).next_order_id =
        OrderBook.init.next_order_id + 1) ∧
    "ORD" ++ Nat.repr 1 ≠ "ORD" ++ Nat.repr 2 :=
  ⟨C9_order_ids.2.1 OrderBook.init .BUY 1 1 0 "ORD1"
      (OrderBook.addOrderB OrderBook.init .BUY 1 1 0) rfl,
   C9_order_ids.2.2.2.2 1 2 (by decide)⟩

theorem GoodSide_cons (pl : ℚ × List Order) (rest : PriceLevels)
    (h : GoodSide (pl :: rest)) : GoodSide rest := by
  obtain ⟨p, os⟩ := pl
  exact ⟨fun o ho => h.1 o (by rw [ordersOf_cons]; exact List.mem_append_right _ ho),
    fun l hl => h.2 l (List.mem_cons_of_mem _ hl)⟩

theorem ordersOf_insertBid (p : ℚ) (o : Order) :
    ∀ ls, ∀ o' ∈ ordersOf (insertBid p o ls), o' = o ∨ o' ∈ ordersOf ls := by
  intro ls
  induction ls with
  | nil =>
    intro o' ho'
    simp only [insertBid, ordersOf, List.append_nil, List.mem_singleton] at ho'
    exact Or.inl ho'
  | cons pl rest ih =>
    obtain ⟨q, os⟩ := pl
    intro o' ho'
    rw [insertBid] at ho'
    split_ifs at ho' with h1 h2
    · rw [ordersOf_cons, ordersOf_cons, List.mem_append] at ho'
      rcases ho' with ho' | ho'
      · exact Or.inl (List.mem_singleton.mp ho')
      · exact Or.inr (by rw [ordersOf_cons]; exact ho')
    · rw [ordersOf_cons, List.mem_append, List.mem_append] at ho'
      rw [ordersOf_cons]
      rcases ho' with (ho' | ho') | ho'
      · exact Or.inr (List.mem_append_left _ ho')
      · exact Or.inl (List.mem_singleton.mp ho')
      · exact Or.inr (List.mem_append_right _ ho')
    · rw [ordersOf_cons, List.mem_append] at ho'
      rw [ordersOf_cons]
      rcases ho' with ho' | ho'
      · exact Or.inr (List.mem_append_left _ ho')
      · rcases ih o' ho' with h | h
        · exact Or.inl h
        · exact Or.inr (List.mem_append_right _ h)

theorem ordersOf_insertAsk (p : ℚ) (o : Order) :
    ∀ ls, ∀ o' ∈ ordersOf (insertAsk p o ls), o' = o ∨ o' ∈ ordersOf ls := by
  intro ls
  induction ls with
  | nil =>
    intro o' ho'
    simp only [insertAsk, ordersOf, List.append_nil, List.mem_singleton] at ho'
    exact Or.inl ho'
  | cons pl rest ih =>
    obtain ⟨q, os⟩ := pl
    intro o' ho'
    rw [insertAsk] at ho'
    split_ifs at ho' with h1 h2
    · rw [ordersOf_cons, ordersOf_cons, List.mem_append] at ho'
      rcases ho' with ho' | ho'
      · exact Or.inl (List.mem_singleton.mp ho')
      · exact Or.inr (by rw [ordersOf_cons]; exact ho')
    · rw [ordersOf_cons, List.mem_append, List.mem_append] at ho'
      rw [ordersOf_cons]
      rcases ho' with (ho' | ho') | ho'
      · exact Or.inr (List.mem_append_left _ ho')
      · exact Or.inl (List.mem_singleton.mp ho')
      · exact Or.inr (List.mem_append_right _ ho')
    · rw [ordersOf_cons, List.mem_append] at ho'
      rw [ordersOf_cons]
      rcases ho' with ho' | ho'
      · exact Or.inr (List.mem_append_left _ ho')
      · rcases ih o' ho' with h | h
        · exact Or.inl h
        · exact Or.inr (List.mem_append_right _ h)

theorem levels_insertBid (p : ℚ) (o : Order) :
    ∀ ls, (∀ pl ∈ ls, pl.2 ≠ []) → ∀ pl ∈ insertBid p o ls, pl.2 ≠ [] := by
  intro ls
  induction ls with
  | nil =>
    intro _ pl hpl
    rw [insertBid, List.mem_singleton] at hpl
    subst hpl
    simp
  | cons hd rest ih =>
    obtain ⟨q, os⟩ := hd
    intro hls pl hpl
    rw [insertBid] at hpl
    split_ifs at hpl with h1 h2
    · rcases List.mem_cons.mp hpl with rfl | hpl
      · simp
      · exact hls pl hpl
    · rcases List.mem_cons.mp hpl with rfl | hpl
      · simp
      · exact hls pl (List.mem_cons_of_mem _ hpl)
    · rcases List.mem_cons.mp hpl with rfl | hpl
      · exact hls (q, os) (List.mem_cons_self _ _)
      · exact ih (fun l hl => hls l (List.mem_cons_of_mem _ hl)) pl hpl

theorem levels_insertAsk (p : ℚ) (o : Order) :
    ∀ ls, (∀ pl ∈ ls, pl.2 ≠ []) → ∀ pl ∈ insertAsk p o ls, pl.2 ≠ [] := by
  intro ls
  induction ls with
  | nil =>
    intro _ pl hpl
    rw [insertAsk, List.mem_singleton] at hpl
    subst hpl
    simp
  | cons hd rest ih =>
    obtain ⟨q, os⟩ := hd
    intro hls pl hpl
    rw [insertAsk] at hpl
    split_ifs at hpl with h1 h2
    · rcases List.mem_cons.mp hpl with rfl | hpl
      · simp
      · exact hls pl hpl
    · rcases List.mem_cons.mp hpl with rfl | hpl
      · simp
      · exact hls pl (List.mem_cons_of_mem _ hpl)
    · rcases List.mem_cons.mp hpl with rfl | hpl
      · exact hls (q, os) (List.mem_cons_self _ _)
      · exact ih (fun l hl => hls l (List.mem_cons_of_mem _ hl)) pl hpl

theorem addOrder_ok_book (b : OrderBook) (side : OrderSide) (p q : ℚ) (now : ℤ)
    (oid : String) (b' : OrderBook)
    (h : b.addOrder side p q now = Except.ok (oid, b')) :
    0 < p ∧ 0 < q ∧
    ((side = .BUY ∧ b'.bids = insertBid p ⟨oid, side, p, q, now⟩ b.bids ∧
        b'.asks = b.asks) ∨
      (side = .SELL ∧ b'.asks = insertAsk p ⟨oid, side, p, q, now⟩ b.asks ∧
        b'.bids = b.bids)) := by
  rw [OrderBook.addOrder] at h
  by_cases hc : p ≤ 0 ∨ q ≤ 0
  · rw [if_pos hc] at h
    exact absurd h (by simp)
  · push_neg at hc
    rw [if_neg (by push_neg; exact hc)] at h
    refine ⟨hc.1, hc.2, ?_⟩
    cases side <;>
      simp only [OrderBook.generateOrderId, Except.ok.injEq, Prod.mk.injEq] at h <;>
      obtain ⟨h1, h2⟩ := h <;> subst h1 <;> rw [← h2]
    · exact Or.inl ⟨rfl, rfl, rfl⟩
    · exact Or.inr ⟨rfl, rfl, rfl⟩

theorem addOrderB_good (b : OrderBook) (side : OrderSide) (p q : ℚ) (now : ℤ)
    (hg : Good b) : Good (b.addOrderB side p q now) := by
  rw [OrderBook.addOrderB]
  rcases hao : b.addOrder side p q now with e | r
  · exact hg
  · obtain ⟨oid, b'⟩ := r
    obtain ⟨hp, hq, hcase⟩ := addOrder_ok_book b side p q now oid b' hao
    rcases hcase with ⟨-, hb, ha⟩ | ⟨-, ha, hb⟩
    · refine ⟨⟨?_, ?_⟩, ha ▸ hg.2⟩
      · intro o ho
        rw [hb] at ho
        rcases ordersOf_insertBid p _ b.bids o ho with rfl | ho
        · exact hq
        · exact hg.1.1 o ho
      · intro pl hpl
        rw [hb] at hpl
        exact levels_insertBid p _ b.bids hg.1.2 pl hpl
    · refine ⟨hb ▸ hg.1, ?_, ?_⟩
      · intro o ho
        rw [ha] at ho
        rcases ordersOf_insertAsk p _ b.asks o ho with rfl | ho
        · exact hq
        · exact hg.2.1 o ho
      · intro pl hpl
        rw [ha] at hpl
        exact levels_insertAsk p _ b.asks hg.2.2 pl hpl

theorem matchStep_not_cleanup (b : OrderBook) (now : ℤ) (b' : OrderBook)
    (hg : Good b) : matchStep b now ≠ some (b', none) := by
  intro h
  obtain ⟨-, hbd, had, hne⟩ := matchStep_cleanup_cases b now b' h
  rcases hbd with ⟨bp, brest, hb1, -⟩ | hb2
  · exact hg.1.2 (bp, []) (by rw [hb1]; exact List.mem_cons_self _ _) rfl
  · rcases had with ⟨ap, arest, ha1, -⟩ | ha2
    · exact hg.2.2 (ap, []) (by rw [ha1]; exact List.mem_cons_self _ _) rfl
    · rcases hne with h1 | h1
      · exact h1 hb2
      · exact h1 ha2

theorem matchStep_good (b : OrderBook) (now : ℤ) (b' : OrderBook) (ot : Option Trade)
    (hg : Good b) (h : matchStep b now = some (b', ot)) : Good b' := by
  rcases ot with _ | t
  · exact absurd h (matchStep_not_cleanup b now b' hg)
  · obtain ⟨bp, bo, bos', brest, ap, ao, aos', arest, hb, ha, -, hteq, hb', ha', -⟩ :=
      matchStep_trade_cases b now b' t h
    have hgb := hb ▸ hg.1
    have hga := ha ▸ hg.2
    constructor
    · rw [hb']
      split_ifs with h1 h2
      · exact GoodSide_cons _ _ hgb
      · refine ⟨?_, ?_⟩
        · intro o ho
          rw [ordersOf_cons, List.mem_append] at ho
          refine hgb.1 o ?_
          rw [ordersOf_cons]
          rcases ho with ho | ho
          · exact List.mem_append_left _ (List.mem_cons_of_mem _ ho)
          · exact List.mem_append_right _ ho
        · intro pl hpl
          rcases List.mem_cons.mp hpl with rfl | hpl
          · exact h2
          · exact hgb.2 pl (List.mem_cons_of_mem _ hpl)
      · have hq : 0 < bo.quantity - min bo.quantity ao.quantity := by
          have hle : min bo.quantity ao.quantity ≤ bo.quantity := min_le_left _ _
          have h0 : 0 ≤ bo.quantity - min bo.quantity ao.quantity := by linarith
          rcases lt_or_eq_of_le h0 with h | h
          · exact h
          · exact absurd h.symm h1
        refine ⟨?_, ?_⟩
        · intro o ho
          rw [ordersOf_cons, List.mem_append, List.mem_cons] at ho
          rcases ho with (rfl | ho) | ho
          · exact hq
          · exact hgb.1 o (by
              rw [ordersOf_cons]
              exact List.mem_append_left _ (List.mem_cons_of_mem _ ho))
          · exact hgb.1 o (by
              rw [ordersOf_cons]
              exact List.mem_append_right _ ho)
        · intro pl hpl
          rcases List.mem_cons.mp hpl with rfl | hpl
          · simp
          · exact hgb.2 pl (List.mem_cons_of_mem _ hpl)
    · rw [ha']
      split_ifs with h1 h2
      · exact GoodSide_cons _ _ hga
      · refine ⟨?_, ?_⟩
        · intro o ho
          rw [ordersOf_cons, List.mem_append] at ho
          refine hga.1 o ?_
          rw [ordersOf_cons]
          rcases ho with ho | ho
          · exact List.mem_append_left _ (List.mem_cons_of_mem _ ho)
          · exact List.mem_append_right _ ho
        · intro pl hpl
          rcases List.mem_cons.mp hpl with rfl | hpl
          · exact h2
          · exact hga.2 pl (List.mem_cons_of_mem _ hpl)
      · have hq : 0 < ao.quantity - min bo.quantity ao.quantity := by
          have hle : min bo.quantity ao.quantity ≤ ao.quantity := min_le_right _ _
          have h0 : 0 ≤ ao.quantity - min bo.quantity ao.quantity := by linarith
          rcases lt_or_eq_of_le h0 with h | h
          · exact h
          · exact absurd h.symm h1
        refine ⟨?_, ?_⟩
        · intro o ho
          rw [ordersOf_cons, List.mem_append, List.mem_cons] at ho
          rcases ho with (rfl | ho) | ho
          · exact hq
          · exact hga.1 o (by
              rw [ordersOf_cons]
              exact List.mem_append_left _ (List.mem_cons_of_mem _ ho))
          · exact hga.1 o (by
              rw [ordersOf_cons]
              exact List.mem_append_right _ ho)
        · intro pl hpl
          rcases List.mem_cons.mp hpl with rfl | hpl
          · simp
          · exact hga.2 pl (List.mem_cons_of_mem _ hpl)

theorem matchLoop_good (now : ℤ) (fuel : ℕ) (b : OrderBook) (hg : Good b) :
    Good ((matchLoop now fuel b).2.1) := by
  induction fuel generalizing b with
  | zero =>
    rw [matchLoop.eq_def]
    rcases hs : matchStep b now with _ | ⟨b', ot⟩
    · exact hg
    · exact hg
  | succ fuel ih =>
    rw [matchLoop.eq_def]
    rcases hs : matchStep b now with _ | ⟨b', ot⟩
    · exact hg
    · exact ih b' (matchStep_good b now b' ot hg hs)

theorem good_init : Good OrderBook.init := by
  constructor <;> exact ⟨fun o ho => absurd ho (by simp [ordersOf]),
    fun pl hpl => absurd hpl (by simp [OrderBook.init])⟩

theorem reachable_good (b : OrderBook) (h : Reachable b) : Good b := by
  induction h with
  | init => exact good_init
  | add b side p q now _ ih => exact addOrderB_good b side p q now ih
  | mtch b now _ ih => exact matchLoop_good now b.measure b ih
  | reset b _ => exact good_init

/-- C5: every book state reachable through `addOrder`, `matchOrders` and
`reset` has only strictly-positive order quantities and no empty price
levels; on such books a loop iteration never takes the defensive empty-level
cleanup branch, and every iteration preserves the invariant (so no iteration
inside a `matchOrders` call from a reachable state takes it either). -/
theorem C5_good_invariant :
    (∀ b : OrderBook, Reachable b → Good b) ∧
    (∀ (b : OrderBook) (now : ℤ) (b' : OrderBook), Good b →
      matchStep b now ≠ some (b', none)) ∧
    (∀ (b : OrderBook) (now : ℤ) (b' : OrderBook) (ot : Option Trade), Good b →
      matchStep b now = some (b', ot) → Good b') :=
  ⟨reachable_good, matchStep_not_cleanup, matchStep_good⟩

/-- Witness for C5: the book holding the first accepted order is reachable
and satisfies the invariant. -/
theorem C5_good_invariant_witness :
    Good (OrderBook.addOrderB OrderBook.init .BUY 1 1 0) :=
  C5_good_invariant.1 (OrderBook.addOrderB OrderBook.init .BUY 1 1 0)
    (Reachable.add OrderBook.init .BUY 1 1 0 Reachable.init)

theorem levelAt_of_not_mem (p : ℚ) :
    ∀ ls : PriceLevels, (∀ pl ∈ ls, pl.1 ≠ p) → levelAt p ls = [] := by
  intro ls
  induction ls with
  | nil => intro _; rfl
  | cons hd rest ih =>
    obtain ⟨q, os⟩ := hd
    intro h
    rw [levelAt, if_neg (h (q, os) (List.mem_cons_self _ _))]
    exact ih fun pl hpl => h pl (List.mem_cons_of_mem _ hpl)

theorem levelAt_cons_self (p : ℚ) (os : List Order) (rest : PriceLevels) :
    levelAt p ((p, os) :: rest) = os := by
  simp [levelAt]

theorem levelAt_cons_ne (p q : ℚ) (os : List Order) (rest : PriceLevels)
    (h : q ≠ p) : levelAt p ((q, os) :: rest) = levelAt p rest := by
  simp [levelAt, h]

theorem insertBid_levelAt (p : ℚ) (o : Order) :
    ∀ ls : PriceLevels, SortedBids ls →
      levelAt p (insertBid p o ls) = levelAt p ls ++ [o] ∧
      ∀ p' ≠ p, levelAt p' (insertBid p o ls) = levelAt p' ls := by
  intro ls
  induction ls with
  | nil =>
    intro _
    refine ⟨?_, ?_⟩
    · rw [insertBid, levelAt_cons_self]
      rfl
    · intro p' hp'
      rw [insertBid, levelAt_cons_ne p' p [o] [] (fun he => hp' he.symm)]
  | cons hd rest ih =>
    obtain ⟨q, os⟩ := hd
    intro hs
    rw [SortedBids, List.pairwise_cons] at hs
    obtain ⟨hhd, hrest⟩ := hs
    rw [insertBid]
    split_ifs with h1 h2
    · refine ⟨?_, ?_⟩
      · have hqp : q ≠ p := fun he => absurd h1 (by rw [he]; exact lt_irrefl p)
        have hnm : ∀ pl ∈ rest, pl.1 ≠ p := by
          intro pl hpl
          have hlt : pl.1 < q := hhd pl hpl
          intro he
          rw [he] at hlt
          exact absurd (lt_trans hlt h1) (lt_irrefl p)
        rw [levelAt_cons_self, levelAt_cons_ne p q os rest hqp,
          levelAt_of_not_mem p rest hnm]
        rfl
      · intro p' hp'
        rw [levelAt_cons_ne p' p [o] _ (fun he => hp' he.symm)]
    · subst h2
      refine ⟨?_, ?_⟩
      · rw [levelAt_cons_self, levelAt_cons_self]
      · intro p' hp'
        rw [levelAt_cons_ne p' p _ _ (fun he => hp' he.symm),
          levelAt_cons_ne p' p _ _ (fun he => hp' he.symm)]
    · have hqp : q ≠ p := fun he => h2 he.symm
      refine ⟨?_, ?_⟩
      · rw [levelAt_cons_ne p q _ _ hqp, levelAt_cons_ne p q _ _ hqp]
        exact (ih hrest).1
      · intro p' hp'
        rcases eq_or_ne q p' with rfl | hqp'
        · rw [levelAt_cons_self, levelAt_cons_self]
        · rw [levelAt_cons_ne p' q _ _ hqp', levelAt_cons_ne p' q _ _ hqp']
          exact (ih hrest).2 p' hp'

theorem insertAsk_levelAt (p : ℚ) (o : Order) :
    ∀ ls : PriceLevels, SortedAsks ls →
      levelAt p (insertAsk p o ls) = levelAt p ls ++ [o] ∧
      ∀ p' ≠ p, levelAt p' (insertAsk p o ls) = levelAt p' ls := by
  intro ls
  induction ls with
  | nil =>
    intro _
    refine ⟨?_, ?_⟩
    · rw [insertAsk, levelAt_cons_self]
      rfl
    · intro p' hp'
      rw [insertAsk, levelAt_cons_ne p' p [o] [] (fun he => hp' he.symm)]
  | cons hd rest ih =>
    obtain ⟨q, os⟩ := hd
    intro hs
    rw [SortedAsks, List.pairwise_cons] at hs
    obtain ⟨hhd, hrest⟩ := hs
    rw [insertAsk]
    split_ifs with h1 h2
    · refine ⟨?_, ?_⟩
      · have hqp : q ≠ p := fun he => absurd h1 (by rw [he]; exact lt_irrefl p)
        have hnm : ∀ pl ∈ rest, pl.1 ≠ p := by
          intro pl hpl
          have hlt : q < pl.1 := hhd pl hpl
          intro he
          rw [he] at hlt
          exact absurd (lt_trans h1 hlt) (lt_irrefl p)
        rw [levelAt_cons_self, levelAt_cons_ne p q os rest hqp,
          levelAt_of_not_mem p rest hnm]
        rfl
      · intro p' hp'
        rw [levelAt_cons_ne p' p [o] _ (fun he => hp' he.symm)]
    · subst h2
      refine ⟨?_, ?_⟩
      · rw [levelAt_cons_self, levelAt_cons_self]
      · intro p' hp'
        rw [levelAt_cons_ne p' p _ _ (fun he => hp' he.symm),
          levelAt_cons_ne p' p _ _ (fun he => hp' he.symm)]
    · have hqp : q ≠ p := fun he => by rw [he] at h1 h2; exact h2 rfl
      refine ⟨?_, ?_⟩
      · rw [levelAt_cons_ne p q _ _ hqp, levelAt_cons_ne p q _ _ hqp]
        exact (ih hrest).1
      · intro p' hp'
        rcases eq_or_ne q p' with rfl | hqp'
        · rw [levelAt_cons_self, levelAt_cons_self]
        · rw [levelAt_cons_ne p' q _ _ hqp', levelAt_cons_ne p' q _ _ hqp']
          exact (ih hrest).2 p' hp'

/-- C4: FIFO within a price level.  An accepted `addOrder` appends the new
order at the tail of the queue of its price level and leaves every other
level untouched; a trade step always fills against the head order of the best
level — the head is either removed (fully filled) or shrunk in place, and the
later orders of the level and all other levels are carried over unchanged, so
an order receives quantity only after every earlier order at its price is
gone. -/
theorem C4_fifo_within_level :
    (∀ (b : OrderBook) (side : OrderSide) (p q : ℚ) (now : ℤ) (oid : String)
        (b' : OrderBook), b.addOrder side p q now = Except.ok (oid, b') →
      (side = .BUY → SortedBids b.bids →
        levelAt p b'.bids = levelAt p b.bids ++ [⟨oid, side, p, q, now⟩] ∧
          ∀ p' ≠ p, levelAt p' b'.bids = levelAt p' b.bids) ∧
      (side = .SELL → SortedAsks b.asks →
        levelAt p b'.asks = levelAt p b.asks ++ [⟨oid, side, p, q, now⟩] ∧
          ∀ p' ≠ p, levelAt p' b'.asks = levelAt p' b.asks)) ∧
    (∀ (b : OrderBook) (now : ℤ) (b' : OrderBook) (t : Trade),
      matchStep b now = some (b', some t) →
      ∃ bp bo bos' brest, b.bids = (bp, bo :: bos') :: brest ∧
        t.buy_order_id = bo.id ∧
        (b'.bids = brest ∨ b'.bids = (bp, bos') :: brest ∨
          b'.bids = (bp, { bo with quantity := bo.quantity - t.quantity } ::
            bos') :: brest)) ∧
    (∀ (b : OrderBook) (now : ℤ) (b' : OrderBook) (t : Trade),
      matchStep b now = some (b', some t) →
      ∃ ap ao aos' arest, b.asks = (ap, ao :: aos') :: arest ∧
        t.sell_order_id = ao.id ∧
        (b'.asks = arest ∨ b'.asks = (ap, aos') :: arest ∨
          b'.asks = (ap, { ao with quantity := ao.quantity - t.quantity } ::
            aos') :: arest)) := by
  refine ⟨?_, ?_, ?_⟩
  · intro b side p q now oid b' h
    obtain ⟨-, -, hcase⟩ := addOrder_ok_book b side p q now oid b' h
    constructor
    · rintro rfl hsort
      rcases hcase with ⟨-, hb, -⟩ | ⟨hside, -, -⟩
      · rw [hb]
        exact insertBid_levelAt p _ b.bids hsort
      · exact absurd hside (by simp)
    · rintro rfl hsort
      rcases hcase with ⟨hside, -, -⟩ | ⟨-, ha, -⟩
      · exact absurd hside (by simp)
      · rw [ha]
        exact insertAsk_levelAt p _ b.asks hsort
  · intro b now b' t h
    obtain ⟨bp, bo, bos', brest, ap, ao, aos', arest, hb, ha, -, hteq, hb', ha', -⟩ :=
      matchStep_trade_cases b now b' t h
    have htq : t.quantity = min bo.quantity ao.quantity := by rw [hteq]
    refine ⟨bp, bo, bos', brest, hb, by rw [hteq], ?_⟩
    rw [htq]
    split_ifs at hb' with h1 h2
    · exact Or.inl hb'
    · exact Or.inr (Or.inl hb')
    · exact Or.inr (Or.inr hb')
  · intro b now b' t h
    obtain ⟨bp, bo, bos', brest, ap, ao, aos', arest, hb, ha, -, hteq, hb', ha', -⟩ :=
      matchStep_trade_cases b now b' t h
    have htq : t.quantity = min bo.quantity ao.quantity := by rw [hteq]
    refine ⟨ap, ao, aos', arest, ha, by rw [hteq], ?_⟩
    rw [htq]
    split_ifs at ha' with h1 h2
    · exact Or.inl ha'
    · exact Or.inr (Or.inl ha')
    · exact Or.inr (Or.inr ha')

/-- Witness for C4: adding a second buy order at price 100 appends it behind
the resting one at that level. -/
theorem C4_fifo_within_level_witness :
    levelAt 100 (OrderBook.addOrderB
        ⟨[((100 : ℚ), [⟨"ORD1", .BUY, 100, 1, 0⟩])], [], 2⟩ .BUY 100 2 0).bids =
      levelAt 100 [((100 : ℚ), [⟨"ORD1", .BUY, 100, 1, 0⟩])] ++
        [⟨"ORD2", .BUY, 100, 2, 0⟩] ∧
    ∀ p' ≠ (100 : ℚ),
      levelAt p' (OrderBook.addOrderB
          ⟨[((100 : ℚ), [⟨"ORD1", .BUY, 100, 1, 0⟩])], [], 2⟩ .BUY 100 2 0).bids =
        levelAt p' [((100 : ℚ), [⟨"ORD1", .BUY, 100, 1, 0⟩])] :=
  (C4_fifo_within_level.1 ⟨[((100 : ℚ), [⟨"ORD1", .BUY, 100, 1, 0⟩])], [], 2⟩ .BUY
      100 2 0 "ORD2"
      (OrderBook.addOrderB ⟨[((100 : ℚ), [⟨"ORD1", .BUY, 100, 1, 0⟩])], [], 2⟩
        .BUY 100 2 0) rfl).1 rfl (by decide)

theorem fillsBuy_nil (i : String) : fillsBuy [] i = 0 := rfl

theorem fillsSell_nil (i : String) : fillsSell [] i = 0 := rfl

theorem fillsBuy_cons (t : Trade) (ts : List Trade) (i : String) :
    fillsBuy (t :: ts) i =
      (if t.buy_order_id = i then t.quantity else 0) + fillsBuy ts i := by
  by_cases h : t.buy_order_id = i
  · simp [fillsBuy, List.filter_cons, h]
  · simp [fillsBuy, List.filter_cons, h]

theorem fillsSell_cons (t : Trade) (ts : List Trade) (i : String) :
    fillsSell (t :: ts) i =
      (if t.sell_order_id = i then t.quantity else 0) + fillsSell ts i := by
  by_cases h : t.sell_order_id = i
  · simp [fillsSell, List.filter_cons, h]
  · simp [fillsSell, List.filter_cons, h]

theorem fillsBuy_eq_zero (ts : List Trade) (i : String)
    (h : ∀ t ∈ ts, t.buy_order_id ≠ i) : fillsBuy ts i = 0 := by
  induction ts with
  | nil => rfl
  | cons t ts ih =>
    rw [fillsBuy_cons, if_neg (h t (List.mem_cons_self t ts)),
      ih (fun u hu => h u (List.mem_cons_of_mem t hu))]
    ring

theorem fillsSell_eq_zero (ts : List Trade) (i : String)
    (h : ∀ t ∈ ts, t.sell_order_id ≠ i) : fillsSell ts i = 0 := by
  induction ts with
  | nil => rfl
  | cons t ts ih =>
    rw [fillsSell_cons, if_neg (h t (List.mem_cons_self t ts)),
      ih (fun u hu => h u (List.mem_cons_of_mem t hu))]
    ring

theorem filter_id_singleton (l : List Order) (o : Order)
    (hnd : (l.map Order.id).Nodup) (ho : o ∈ l) :
    l.filter (fun x => x.id = o.id) = [o] := by
  induction l with
  | nil => exact absurd ho (List.not_mem_nil o)
  | cons a l ih =>
    rw [List.map_cons, List.nodup_cons] at hnd
    rcases List.mem_cons.mp ho with rfl | ho
    · rw [List.filter_cons, if_pos (by simp)]
      have hnil : l.filter (fun x => x.id = o.id) = [] := by
        rw [List.filter_eq_nil_iff]
        intro x hx
        simp only [decide_eq_true_eq]
        intro he
        exact hnd.1 (he ▸ List.mem_map_of_mem Order.id hx)
      rw [hnil]
    · have hne : a.id ≠ o.id := by
        intro he
        exact hnd.1 (he ▸ List.mem_map_of_mem Order.id ho)
      rw [List.filter_cons, if_neg (by simp [hne])]
      exact ih hnd.2 ho

theorem qtyOf_eq (ls : PriceLevels) (o : Order) (hnd : (idsOf ls).Nodup)
    (ho : o ∈ ordersOf ls) : qtyOf ls o.id = o.quantity := by
  rw [qtyOf, filter_id_singleton (ordersOf ls) o hnd ho]
  simp

theorem qtyOf_absent (ls : PriceLevels) (i : String) (h : i ∉ idsOf ls) :
    qtyOf ls i = 0 := by
  rw [qtyOf]
  have hnil : (ordersOf ls).filter (fun x => x.id = i) = [] := by
    rw [List.filter_eq_nil_iff]
    intro x hx
    simp only [decide_eq_true_eq]
    intro he
    exact h (he ▸ List.mem_map_of_mem Order.id hx)
  rw [hnil]
  rfl

theorem qtyOf_nonneg (ls : PriceLevels) (i : String) (hg : GoodSide ls) :
    0 ≤ qtyOf ls i := by
  rw [qtyOf]
  refine List.sum_nonneg ?_
  intro x hx
  rw [List.mem_map] at hx
  obtain ⟨o, ho, rfl⟩ := hx
  exact le_of_lt (hg.1 o (List.mem_of_mem_filter ho))

theorem matchStep_bidIds (b : OrderBook) (now : ℤ) (b' : OrderBook)
    (ot : Option Trade) (h : matchStep b now = some (b', ot)) :
    idsOf b'.bids = idsOf b.bids ∨ idsOf b'.bids = (idsOf b.bids).tail := by
  rcases ot with _ | t
  · obtain ⟨-, hbd, -, -⟩ := matchStep_cleanup_cases b now b' h
    rcases hbd with ⟨bp, brest, hb1, hb2⟩ | hb2
    · left
      rw [hb1, hb2, idsOf, idsOf, ordersOf_cons, List.nil_append]
    · left
      rw [hb2]
  · obtain ⟨bp, bo, bos', brest, ap, ao, aos', arest, hb, ha, -, -, hb', -, -⟩ :=
      matchStep_trade_cases b now b' t h
    rw [hb', hb]
    split_ifs with h1 h2
    · right
      subst h2
      simp [idsOf, ordersOf_cons]
    · right
      simp [idsOf, ordersOf_cons]
    · left
      simp [idsOf, ordersOf_cons]

theorem matchStep_askIds (b : OrderBook) (now : ℤ) (b' : OrderBook)
    (ot : Option Trade) (h : matchStep b now = some (b', ot)) :
    idsOf b'.asks = idsOf b.asks ∨ idsOf b'.asks = (idsOf b.asks).tail := by
  rcases ot with _ | t
  · obtain ⟨-, -, had, -⟩ := matchStep_cleanup_cases b now b' h
    rcases had with ⟨ap, arest, ha1, ha2⟩ | ha2
    · left
      rw [ha1, ha2, idsOf, idsOf, ordersOf_cons, List.nil_append]
    · left
      rw [ha2]
  · obtain ⟨bp, bo, bos', brest, ap, ao, aos', arest, hb, ha, -, -, -, ha', -⟩ :=
      matchStep_trade_cases b now b' t h
    rw [ha', ha]
    split_ifs with h1 h2
    · right
      subst h2
      simp [idsOf, ordersOf_cons]
    · right
      simp [idsOf, ordersOf_cons]
    · left
      simp [idsOf, ordersOf_cons]

theorem tail_subset_self {α : Type} (l : List α) : l.tail ⊆ l := by
  cases l with
  | nil => exact fun x hx => hx
  | cons a l => exact fun x hx => List.mem_cons_of_mem a hx

theorem matchLoop_bidIds_subset (now : ℤ) (fuel : ℕ) (b : OrderBook) :
    idsOf ((matchLoop now fuel b).2.1).bids ⊆ idsOf b.bids := by
  induction fuel generalizing b with
  | zero =>
    rw [matchLoop.eq_def]
    rcases hs : matchStep b now with _ | ⟨b', ot⟩
    · exact fun x hx => hx
    · exact fun x hx => hx
  | succ fuel ih =>
    rw [matchLoop.eq_def]
    rcases hs : matchStep b now with _ | ⟨b', ot⟩
    · exact fun x hx => hx
    · dsimp only
      intro x hx
      have hx' := ih b' hx
      rcases matchStep_bidIds b now b' ot hs with he | he
      · exact he ▸ hx'
      · exact tail_subset_self _ (he ▸ hx')

theorem matchLoop_askIds_subset (now : ℤ) (fuel : ℕ) (b : OrderBook) :
    idsOf ((matchLoop now fuel b).2.1).asks ⊆ idsOf b.asks := by
  induction fuel generalizing b with
  | zero =>
    rw [matchLoop.eq_def]
    rcases hs : matchStep b now with _ | ⟨b', ot⟩
    · exact fun x hx => hx
    · exact fun x hx => hx
  | succ fuel ih =>
    rw [matchLoop.eq_def]
    rcases hs : matchStep b now with _ | ⟨b', ot⟩
    · exact fun x hx => hx
    · dsimp only
      intro x hx
      have hx' := ih b' hx
      rcases matchStep_askIds b now b' ot hs with he | he
      · exact he ▸ hx'
      · exact tail_subset_self _ (he ▸ hx')

theorem matchStep_trade_bid_orders (b : OrderBook) (now : ℤ) (b' : OrderBook)
    (t : Trade) (h : matchStep b now = some (b', some t)) :
    ∃ bo rest, ordersOf b.bids = bo :: rest ∧ t.buy_order_id = bo.id ∧
      ((ordersOf b'.bids = rest ∧ t.quantity = bo.quantity) ∨
        (ordersOf b'.bids =
            { bo with quantity := bo.quantity - t.quantity } :: rest ∧
          t.quantity ≠ bo.quantity)) := by
  obtain ⟨bp, bo, bos', brest, ap, ao, aos', arest, hb, ha, -, hteq, hb', -, -⟩ :=
    matchStep_trade_cases b now b' t h
  have htq : t.quantity = min bo.quantity ao.quantity := by rw [hteq]
  refine ⟨bo, bos' ++ ordersOf brest,
    by rw [hb, ordersOf_cons, List.cons_append], by rw [hteq], ?_⟩
  rw [hb']
  split_ifs with h1 h2
  · left
    subst h2
    exact ⟨by simp, by rw [htq]; exact (sub_eq_zero.mp h1).symm⟩
  · left
    exact ⟨by rw [ordersOf_cons], by rw [htq]; exact (sub_eq_zero.mp h1).symm⟩
  · right
    constructor
    · rw [ordersOf_cons, List.cons_append, htq]
    · intro he
      rw [htq] at he
      exact h1 (by rw [he, sub_self])

theorem matchStep_trade_ask_orders (b : OrderBook) (now : ℤ) (b' : OrderBook)
    (t : Trade) (h : matchStep b now = some (b', some t)) :
    ∃ ao rest, ordersOf b.asks = ao :: rest ∧ t.sell_order_id = ao.id ∧
      ((ordersOf b'.asks = rest ∧ t.quantity = ao.quantity) ∨
        (ordersOf b'.asks =
            { ao with quantity := ao.quantity - t.quantity } :: rest ∧
          t.quantity ≠ ao.quantity)) := by
  obtain ⟨bp, bo, bos', brest, ap, ao, aos', arest, hb, ha, -, hteq, -, ha', -⟩ :=
    matchStep_trade_cases b now b' t h
  have htq : t.quantity = min bo.quantity ao.quantity := by rw [hteq]
  refine ⟨ao, aos' ++ ordersOf arest,
    by rw [ha, ordersOf_cons, List.cons_append], by rw [hteq], ?_⟩
  rw [ha']
  split_ifs with h1 h2
  · left
    subst h2
    exact ⟨by simp, by rw [htq]; exact (sub_eq_zero.mp h1).symm⟩
  · left
    exact ⟨by rw [ordersOf_cons], by rw [htq]; exact (sub_eq_zero.mp h1).symm⟩
  · right
    constructor
    · rw [ordersOf_cons, List.cons_append, htq]
    · intro he
      rw [htq] at he
      exact h1 (by rw [he, sub_self])

theorem matchLoop_buyIds (now : ℤ) (fuel : ℕ) (b : OrderBook) :
    ∀ t ∈ (matchLoop now fuel b).1, t.buy_order_id ∈ idsOf b.bids := by
  induction fuel generalizing b with
  | zero =>
    rw [matchLoop.eq_def]
    rcases hs : matchStep b now with _ | ⟨b', ot⟩
    · intro t ht; simp at ht
    · intro t ht; dsimp only at ht; simp at ht
  | succ fuel ih =>
    rw [matchLoop.eq_def]
    rcases hs : matchStep b now with _ | ⟨b', ot⟩
    · intro t ht; simp at ht
    · intro t ht
      dsimp only at ht
      rw [List.mem_append] at ht
      rcases ht with ht | ht
      · rcases ot with _ | t0
        · simp at ht
        · simp only [Option.toList_some, List.mem_singleton] at ht
          subst ht
          obtain ⟨bo, rest, hor, hid, -⟩ := matchStep_trade_bid_orders b now b' _ hs
          rw [hid, idsOf, hor, List.map_cons]
          exact List.mem_cons_self _ _
      · have h2 := ih b' t ht
        rcases matchStep_bidIds b now b' ot hs with he | he
        · exact he ▸ h2
        · exact tail_subset_self _ (he ▸ h2)

theorem matchLoop_sellIds (now : ℤ) (fuel : ℕ) (b : OrderBook) :
    ∀ t ∈ (matchLoop now fuel b).1, t.sell_order_id ∈ idsOf b.asks := by
  induction fuel generalizing b with
  | zero =>
    rw [matchLoop.eq_def]
    rcases hs : matchStep b now with _ | ⟨b', ot⟩
    · intro t ht; simp at ht
    · intro t ht; dsimp only at ht; simp at ht
  | succ fuel ih =>
    rw [matchLoop.eq_def]
    rcases hs : matchStep b now with _ | ⟨b', ot⟩
    · intro t ht; simp at ht
    · intro t ht
      dsimp only at ht
      rw [List.mem_append] at ht
      rcases ht with ht | ht
      · rcases ot with _ | t0
        · simp at ht
        · simp only [Option.toList_some, List.mem_singleton] at ht
          subst ht
          obtain ⟨ao, rest, hor, hid, -⟩ := matchStep_trade_ask_orders b now b' _ hs
          rw [hid, idsOf, hor, List.map_cons]
          exact List.mem_cons_self _ _
      · have h2 := ih b' t ht
        rcases matchStep_askIds b now b' ot hs with he | he
        · exact he ▸ h2
        · exact tail_subset_self _ (he ▸ h2)

theorem nodup_tail {α : Type} {l : List α} (h : l.Nodup) : l.tail.Nodup := by
  cases l with
  | nil => exact h
  | cons a l => exact (List.nodup_cons.mp h).2

/-- Per `matchOrders` call, the quantity an order buys plus its remaining
quantity in the final book equals its resting quantity at entry. -/
theorem matchLoop_fills_bid (now : ℤ) (fuel : ℕ) :
    ∀ b : OrderBook, Good b → (idsOf b.bids).Nodup →
      ∀ o ∈ ordersOf b.bids,
        fillsBuy (matchLoop now fuel b).1 o.id +
          qtyOf ((matchLoop now fuel b).2.1).bids o.id = o.quantity := by
  induction fuel with
  | zero =>
    intro b hg hnd o ho
    rw [matchLoop.eq_def]
    rcases hs : matchStep b now with _ | ⟨b', ot⟩
    · dsimp only
      rw [fillsBuy_nil, qtyOf_eq b.bids o hnd ho]
      ring
    · dsimp only
      rw [fillsBuy_nil, qtyOf_eq b.bids o hnd ho]
      ring
  | succ fuel ih =>
    intro b hg hnd o ho
    rw [matchLoop.eq_def]
    rcases hs : matchStep b now with _ | ⟨b', ot⟩
    · dsimp only
      rw [fillsBuy_nil, qtyOf_eq b.bids o hnd ho]
      ring
    · rcases ot with _ | t
      · exact absurd hs (matchStep_not_cleanup b now b' hg)
      dsimp only
      obtain ⟨bo, rest, hor, hid, hcase⟩ := matchStep_trade_bid_orders b now b' t hs
      have hg' : Good b' := matchStep_good b now b' (some t) hg hs
      have hnd' : (idsOf b'.bids).Nodup := by
        rcases matchStep_bidIds b now b' (some t) hs with he | he
        · exact he ▸ hnd
        · exact he ▸ nodup_tail hnd
      have hids : idsOf b.bids = bo.id :: rest.map Order.id := by
        rw [idsOf, hor, List.map_cons]
      have hbo_not : bo.id ∉ rest.map Order.id := by
        rw [hids] at hnd
        exact (List.nodup_cons.mp hnd).1
      have homem : o = bo ∨ o ∈ rest := by
        rw [hor] at ho
        exact List.mem_cons.mp ho
      rw [Option.toList_some, List.singleton_append, fillsBuy_cons]
      rcases homem with rfl | homem
      · rcases hcase with ⟨hb'o, hq⟩ | ⟨hb'o, hq⟩
        · have hnotin' : o.id ∉ idsOf b'.bids := by
            rw [idsOf, hb'o]
            exact hbo_not
          have hfz : fillsBuy (matchLoop now fuel b').1 o.id = 0 :=
            fillsBuy_eq_zero _ _ (fun u hu he =>
              hnotin' (he ▸ matchLoop_buyIds now fuel b' u hu))
          have hqz : qtyOf ((matchLoop now fuel b').2.1).bids o.id = 0 :=
            qtyOf_absent _ _ (fun hin =>
              hnotin' (matchLoop_bidIds_subset now fuel b' hin))
          rw [if_pos hid, hfz, hqz, hq]
          ring
        · have hin' : ({ o with quantity := o.quantity - t.quantity } : Order) ∈
              ordersOf b'.bids := by
            rw [hb'o]
            exact List.mem_cons_self _ _
          have h3 : fillsBuy (matchLoop now fuel b').1 o.id +
              qtyOf ((matchLoop now fuel b').2.1).bids o.id =
                o.quantity - t.quantity :=
            ih b' hg' hnd' _ hin'
          rw [if_pos hid]
          linarith [h3]
      · have hone : t.buy_order_id ≠ o.id := by
          rw [hid]
          intro he
          exact hbo_not (he ▸ List.mem_map_of_mem Order.id homem)
        have hin' : o ∈ ordersOf b'.bids := by
          rcases hcase with ⟨hb'o, -⟩ | ⟨hb'o, -⟩
          · rw [hb'o]
            exact homem
          · rw [hb'o]
            exact List.mem_cons_of_mem _ homem
        have h3 := ih b' hg' hnd' o hin'
        rw [if_neg hone]
        linarith [h3]

/-- Per `matchOrders` call, the quantity an order sells plus its remaining
quantity in the final book equals its resting quantity at entry. -/
theorem matchLoop_fills_ask (now : ℤ) (fuel : ℕ) :
    ∀ b : OrderBook, Good b → (idsOf b.asks).Nodup →
      ∀ o ∈ ordersOf b.asks,
        fillsSell (matchLoop now fuel b).1 o.id +
          qtyOf ((matchLoop now fuel b).2.1).asks o.id = o.quantity := by
  induction fuel with
  | zero =>
    intro b hg hnd o ho
    rw [matchLoop.eq_def]
    rcases hs : matchStep b now with _ | ⟨b', ot⟩
    · dsimp only
      rw [fillsSell_nil, qtyOf_eq b.asks o hnd ho]
      ring
    · dsimp only
      rw [fillsSell_nil, qtyOf_eq b.asks o hnd ho]
      ring
  | succ fuel ih =>
    intro b hg hnd o ho
    rw [matchLoop.eq_def]
    rcases hs : matchStep b now with _ | ⟨b', ot⟩
    · dsimp only
      rw [fillsSell_nil, qtyOf_eq b.asks o hnd ho]
      ring
    · rcases ot with _ | t
      · exact absurd hs (matchStep_not_cleanup b now b' hg)
      dsimp only
      obtain ⟨ao, rest, hor, hid, hcase⟩ := matchStep_trade_ask_orders b now b' t hs
      have hg' : Good b' := matchStep_good b now b' (some t) hg hs
      have hnd' : (idsOf b'.asks).Nodup := by
        rcases matchStep_askIds b now b' (some t) hs with he | he
        · exact he ▸ hnd
        · exact he ▸ nodup_tail hnd
      have hids : idsOf b.asks = ao.id :: rest.map Order.id := by
        rw [idsOf, hor, List.map_cons]
      have hao_not : ao.id ∉ rest.map Order.id := by
        rw [hids] at hnd
        exact (List.nodup_cons.mp hnd).1
      have homem : o = ao ∨ o ∈ rest := by
        rw [hor] at ho
        exact List.mem_cons.mp ho
      rw [Option.toList_some, List.singleton_append, fillsSell_cons]
      rcases homem with rfl | homem
      · rcases hcase with ⟨ha'o, hq⟩ | ⟨ha'o, hq⟩
        · have hnotin' : o.id ∉ idsOf b'.asks := by
            rw [idsOf, ha'o]
            exact hao_not
          have hfz : fillsSell (matchLoop now fuel b').1 o.id = 0 :=
            fillsSell_eq_zero _ _ (fun u hu he =>
              hnotin' (he ▸ matchLoop_sellIds now fuel b' u hu))
          have hqz : qtyOf ((matchLoop now fuel b').2.1).asks o.id = 0 :=
            qtyOf_absent _ _ (fun hin =>
              hnotin' (matchLoop_askIds_subset now fuel b' hin))
          rw [if_pos hid, hfz, hqz, hq]
          ring
        · have hin' : ({ o with quantity := o.quantity - t.quantity } : Order) ∈
              ordersOf b'.asks := by
            rw [ha'o]
            exact List.mem_cons_self _ _
          have h3 : fillsSell (matchLoop now fuel b').1 o.id +
              qtyOf ((matchLoop now fuel b').2.1).asks o.id =
                o.quantity - t.quantity :=
            ih b' hg' hnd' _ hin'
          rw [if_pos hid]
          linarith [h3]
      · have hone : t.sell_order_id ≠ o.id := by
          rw [hid]
          intro he
          exact hao_not (he ▸ List.mem_map_of_mem Order.id homem)
        have hin' : o ∈ ordersOf b'.asks := by
          rcases hcase with ⟨ha'o, -⟩ | ⟨ha'o, -⟩
          · rw [ha'o]
            exact homem
          · rw [ha'o]
            exact List.mem_cons_of_mem _ homem
        have h3 := ih b' hg' hnd' o hin'
        rw [if_neg hone]
        linarith [h3]

/-- C7: per `matchOrders` call, an order's filled quantity plus its remaining
quantity in the book equals its quantity at entry (so the sum of its fills,
accumulated over successive calls while its remaining quantity only shrinks,
never exceeds its submitted quantity), and its fills alone never exceed that
quantity; moreover, at any trade step the order whose remaining quantity
reaches exactly zero is removed from the book. -/
theorem C7_fills_bounded :
    (∀ (b : OrderBook) (now : ℤ), Good b → (idsOf b.bids).Nodup →
      ∀ o ∈ ordersOf b.bids,
        fillsBuy (b.matchOrders now).1 o.id +
            qtyOf ((b.matchOrders now).2).bids o.id = o.quantity ∧
          fillsBuy (b.matchOrders now).1 o.id ≤ o.quantity) ∧
    (∀ (b : OrderBook) (now : ℤ), Good b → (idsOf b.asks).Nodup →
      ∀ o ∈ ordersOf b.asks,
        fillsSell (b.matchOrders now).1 o.id +
            qtyOf ((b.matchOrders now).2).asks o.id = o.quantity ∧
          fillsSell (b.matchOrders now).1 o.id ≤ o.quantity) ∧
    (∀ (b : OrderBook) (now : ℤ) (b' : OrderBook) (t : Trade),
      (idsOf b.bids).Nodup → matchStep b now = some (b', some t) →
      ∃ bo rest, ordersOf b.bids = bo :: rest ∧ t.buy_order_id = bo.id ∧
        (t.quantity = bo.quantity → bo.id ∉ idsOf b'.bids)) ∧
    (∀ (b : OrderBook) (now : ℤ) (b' : OrderBook) (t : Trade),
      (idsOf b.asks).Nodup → matchStep b now = some (b', some t) →
      ∃ ao rest, ordersOf b.asks = ao :: rest ∧ t.sell_order_id = ao.id ∧
        (t.quantity = ao.quantity → ao.id ∉ idsOf b'.asks)) := by
  refine ⟨?_, ?_, ?_, ?_⟩
  · intro b now hg hnd o ho
    have hcons := matchLoop_fills_bid now b.measure b hg hnd o ho
    refine ⟨hcons, ?_⟩
    have hq0 : 0 ≤ qtyOf ((matchLoop now b.measure b).2.1).bids o.id :=
      qtyOf_nonneg _ _ (matchLoop_good now b.measure b hg).1
    show fillsBuy (matchLoop now b.measure b).1 o.id ≤ o.quantity
    linarith [hcons]
  · intro b now hg hnd o ho
    have hcons := matchLoop_fills_ask now b.measure b hg hnd o ho
    refine ⟨hcons, ?_⟩
    have hq0 : 0 ≤ qtyOf ((matchLoop now b.measure b).2.1).asks o.id :=
      qtyOf_nonneg _ _ (matchLoop_good now b.measure b hg).2
    show fillsSell (matchLoop now b.measure b).1 o.id ≤ o.quantity
    linarith [hcons]
  · intro b now b' t hnd hs
    obtain ⟨bo, rest, hor, hid, hcase⟩ := matchStep_trade_bid_orders b now b' t hs
    refine ⟨bo, rest, hor, hid, ?_⟩
    intro hq
    rcases hcase with ⟨hb'o, -⟩ | ⟨-, hne⟩
    · rw [idsOf, hb'o]
      have hids : idsOf b.bids = bo.id :: rest.map Order.id := by
        rw [idsOf, hor, List.map_cons]
      rw [hids] at hnd
      exact (List.nodup_cons.mp hnd).1
    · exact absurd hq hne
  · intro b now b' t hnd hs
    obtain ⟨ao, rest, hor, hid, hcase⟩ := matchStep_trade_ask_orders b now b' t hs
    refine ⟨ao, rest, hor, hid, ?_⟩
    intro hq
    rcases hcase with ⟨ha'o, -⟩ | ⟨-, hne⟩
    · rw [idsOf, ha'o]
      have hids : idsOf b.asks = ao.id :: rest.map Order.id := by
        rw [idsOf, hor, List.map_cons]
      rw [hids] at hnd
      exact (List.nodup_cons.mp hnd).1
    · exact absurd hq hne

/-- Witness for C7 on a concrete crossed book: the bid for 5 at price 2
buys 3 from the ask and keeps remaining quantity 2, conserving its entry
quantity, and its fills stay below 5. -/
theorem C7_fills_bounded_witness :
    fillsBuy (OrderBook.matchOrders
          ⟨[((2 : ℚ), [⟨"B1", .BUY, 2, 5, 0⟩])],
           [((1 : ℚ), [⟨"A1", .SELL, 1, 3, 0⟩])], 3⟩ 7).1
        (Order.id ⟨"B1", .BUY, 2, 5, 0⟩) +
      qtyOf ((OrderBook.matchOrders
          ⟨[((2 : ℚ), [⟨"B1", .BUY, 2, 5, 0⟩])],
           [((1 : ℚ), [⟨"A1", .SELL, 1, 3, 0⟩])], 3⟩ 7).2).bids
        (Order.id ⟨"B1", .BUY, 2, 5, 0⟩) =
        Order.quantity ⟨"B1", .BUY, 2, 5, 0⟩ ∧
    fillsBuy (OrderBook.matchOrders
          ⟨[((2 : ℚ), [⟨"B1", .BUY, 2, 5, 0⟩])],
           [((1 : ℚ), [⟨"A1", .SELL, 1, 3, 0⟩])], 3⟩ 7).1
        (Order.id ⟨"B1", .BUY, 2, 5, 0⟩) ≤
      Order.quantity ⟨"B1", .BUY, 2, 5, 0⟩ :=
  C7_fills_bounded.1
    ⟨[((2 : ℚ), [⟨"B1", .BUY, 2, 5, 0⟩])], [((1 : ℚ), [⟨"A1", .SELL, 1, 3, 0⟩])], 3⟩
    7 (by decide) (by decide) ⟨"B1", .BUY, 2, 5, 0⟩ (by decide)

end Trading
